import Mathlib

/-!
# SpiFlashRK: SPI NOR flash driver

A shallow embedding of `src/SpiFlashRK.h` / `src/SpiFlashRK.cpp`.

* The SPI bus, the clock (`millis`) and the delays are an abstract `Port` over a device state `σ`.
* Every chip-select framed exchange (`beginTransaction(); spi.transfer(..)*; endTransaction();`)
  and every delay is appended to a trace, so that the command sequences of the driver can be
  stated and proved.
* `size_t` and `unsigned long` are 32-bit on the target: they are `Nat` with explicit `% 2^32`.
* Loops that poll the chip take a `fuel` argument bounding the number of polls; `none` means
  that the fuel ran out (or that the C++ code would trap on a division by zero).
-/

namespace SpiFlashRK

/-! ## Transport -/

/-- One call `spi.transfer(tx, rx, len, NULL)`. `tx = none` is a NULL transmit buffer and
`rx = false` a NULL receive buffer. -/
structure Seg where
  tx : Option (List Nat)
  rx : Bool
  len : Nat
deriving DecidableEq, Repr

/-- What the driver does to the outside world, in order. -/
inductive Event where
  | transaction (segs : List Seg)
  | delay (ms : Nat)
  | delayMicroseconds (us : Nat)
deriving DecidableEq, Repr

/-- The collaborators of the driver: the SPI bus with the chip behind it and the time source.
`transfer segs` is one chip-select framed exchange and returns the bytes stored into the
receive buffers of `segs`. -/
structure Port (σ : Type) where
  transfer : List Seg → σ → List Nat × σ
  millis : σ → Nat × σ
  delay : Nat → σ → σ
  delayMicroseconds : Nat → σ → σ

/-- The device state together with the log of everything the driver did so far. -/
structure Sys (σ : Type) where
  dev : σ
  trace : List Event

/-- Width of `size_t` and `unsigned long` on the target. -/
def WORD : Nat := 2 ^ 32

/-- Subtraction of 32-bit unsigned values. -/
def sub32 (a b : Nat) : Nat := (a % WORD + WORD - b % WORD) % WORD

/-- Addition of 32-bit unsigned values. -/
def add32 (a b : Nat) : Nat := (a + b) % WORD

/-- One exchange: `beginTransaction(); spi.transfer(..) ...; endTransaction();`. -/
def transact {σ : Type} (P : Port σ) (segs : List Seg) (s : Sys σ) : List Nat × Sys σ :=
  ((P.transfer segs s.dev).1,
   { dev := (P.transfer segs s.dev).2, trace := s.trace ++ [Event.transaction segs] })

/-- The call `millis()`. -/
def sysMillis {σ : Type} (P : Port σ) (s : Sys σ) : Nat × Sys σ :=
  ((P.millis s.dev).1 % WORD, { dev := (P.millis s.dev).2, trace := s.trace })

/-- The call `delay(ms)`. -/
def sysDelay {σ : Type} (P : Port σ) (ms : Nat) (s : Sys σ) : Sys σ :=
  { dev := P.delay ms s.dev, trace := s.trace ++ [Event.delay ms] }

/-- The call `delayMicroseconds(us)`. -/
def sysDelayMicroseconds {σ : Type} (P : Port σ) (us : Nat) (s : Sys σ) : Sys σ :=
  { dev := P.delayMicroseconds us s.dev, trace := s.trace ++ [Event.delayMicroseconds us] }

/-! ## The driver object -/

/-- The fields of `SpiFlashBase` and `SpiFlash` with their default member initialisers. -/
structure SpiFlash where
  pageSize : Nat := 256
  sectorSize : Nat := 4096
  manufacturerId : Nat := 0x9d
  spiClockSpeedMHz : Nat := 30
  waitWriteCompletionTimeoutMs : Nat := 10
  sectorEraseTimeoutMs : Nat := 500
  pageProgramTimeoutMs : Nat := 10
  chipEraseTimeoutMs : Nat := 50000
  writeEnableDelayUs : Nat := 3
  addr4byte : Bool := false
deriving DecidableEq, Repr

/-- Constructor `SpiFlash(spi, cs)`. -/
def SpiFlashDefault : SpiFlash := {}

/-- Constructor `SpiFlashISSI(spi, cs)`. -/
def SpiFlashISSI : SpiFlash :=
  { sectorEraseTimeoutMs := 300, pageProgramTimeoutMs := 10, chipEraseTimeoutMs := 6000,
    manufacturerId := 0x9d, writeEnableDelayUs := 3 }

/-- Constructor `SpiFlashWinbond(spi, cs)`. -/
def SpiFlashWinbond : SpiFlash :=
  { sectorEraseTimeoutMs := 500, pageProgramTimeoutMs := 10, chipEraseTimeoutMs := 50000,
    manufacturerId := 0xef, writeEnableDelayUs := 0 }

/-- Constructor `SpiFlashMacronix(spi, cs)`. -/
def SpiFlashMacronix : SpiFlash :=
  { sectorEraseTimeoutMs := 200, pageProgramTimeoutMs := 10, chipEraseTimeoutMs := 220000,
    manufacturerId := 0xc2, writeEnableDelayUs := 0 }

/-- The four device profiles. -/
def profiles : List SpiFlash := [SpiFlashDefault, SpiFlashISSI, SpiFlashWinbond, SpiFlashMacronix]

/-- Method `withPageSize`. -/
def withPageSize (f : SpiFlash) (value : Nat) : SpiFlash := { f with pageSize := value }

/-- Method `withSectorSize`. -/
def withSectorSize (f : SpiFlash) (value : Nat) : SpiFlash := { f with sectorSize := value }

/-- Status register flag: write in progress. -/
def STATUS_WIP : Nat := 0x01

/-- Status register flag: write-enable latch. -/
def STATUS_WEL : Nat := 0x02

/-- Status register flag: status-register write disable. -/
def STATUS_SRWD : Nat := 0x80

/-! ## Identification and registers -/

/-- The exchange of `jedecIdRead`. -/
def jedecSegs : List Seg := [{ tx := some [0x9f, 0, 0, 0], rx := true, len := 4 }]

/-- Method `jedecIdRead`: one full-duplex 4-byte exchange; only `txBuf[0]` is set by the code
(the other three transmit bytes are indeterminate and modelled as 0). -/
def jedecIdRead {σ : Type} (P : Port σ) (s : Sys σ) : Nat × Sys σ :=
  let r := transact P jedecSegs s
  (((r.1.getD 1 0) <<< 16) ||| ((r.1.getD 2 0) <<< 8) ||| (r.1.getD 3 0), r.2)

/-- Method `isValid`. -/
def isValid {σ : Type} (P : Port σ) (f : SpiFlash) (s : Sys σ) : Bool × Sys σ :=
  let r := jedecIdRead P s
  let foundManufacturerId := ((r.1 >>> 16) &&& 0xff) % 256
  (decide (f.manufacturerId = foundManufacturerId), r.2)

/-- The exchange of `readStatus`. -/
def statusSegs : List Seg := [{ tx := some [0x05, 0], rx := true, len := 2 }]

/-- Method `readStatus` (RDSR). -/
def readStatus {σ : Type} (P : Port σ) (s : Sys σ) : Nat × Sys σ :=
  let r := transact P statusSegs s
  (r.1.getD 1 0, r.2)

/-- The exchange of `readConfiguration`. -/
def configSegs : List Seg := [{ tx := some [0x15, 0], rx := true, len := 2 }]

/-- Method `readConfiguration` (RDCR). -/
def readConfiguration {σ : Type} (P : Port σ) (s : Sys σ) : Nat × Sys σ :=
  let r := transact P configSegs s
  (r.1.getD 1 0, r.2)

/-- Method `isWriteInProgress`. -/
def isWriteInProgress {σ : Type} (P : Port σ) (s : Sys σ) : Bool × Sys σ :=
  let r := readStatus P s
  (decide ((r.1 &&& STATUS_WIP) ≠ 0), r.2)

/-! ## Write-progress monitor -/

/-- The `while` loop of `waitForWriteComplete`. The condition is
`isWriteInProgress() && millis() - startTime < timeout`, so `millis()` is only read after a
busy poll. -/
def waitLoop {σ : Type} (P : Port σ) : Nat → Nat → Nat → Sys σ → Option (Sys σ)
  | 0, _, _, _ => none
  | fuel + 1, startTime, timeout, s =>
    let w := isWriteInProgress P s
    if w.1 then
      let m := sysMillis P w.2
      if sub32 m.1 startTime < timeout then
        waitLoop P fuel startTime timeout (if timeout > 500 then sysDelay P 1 m.2 else m.2)
      else some m.2
    else some w.2

/-- Method `waitForWriteComplete(timeout)`; the default argument is `timeout = 0`. -/
def waitForWriteComplete {σ : Type} (P : Port σ) (f : SpiFlash) (fuel : Nat) (timeout : Nat)
    (s : Sys σ) : Option (Sys σ) :=
  let m := sysMillis P s
  waitLoop P fuel m.1 (if timeout = 0 then f.waitWriteCompletionTimeoutMs else timeout) m.2

/-- Method `writeStatus` (WRSR). -/
def writeStatus {σ : Type} (P : Port σ) (f : SpiFlash) (fuel : Nat) (status : Nat)
    (s : Sys σ) : Option (Sys σ) :=
  match waitForWriteComplete P f fuel 0 s with
  | none => none
  | some s1 => some (transact P [{ tx := some [0x01, status], rx := false, len := 2 }] s1).2

/-! ## Command encoder -/

/-- The statement `*p++ = v` on a buffer and a cursor. -/
def put (st : List Nat × Nat) (v : Nat) : List Nat × Nat := (st.1.set st.2 v, st.2 + 1)

/-- Method `setInstWithAddr`: returns the buffer after the stores and the final cursor. -/
def setInstWithAddrP (f : SpiFlash) (inst addr : Nat) (buf : List Nat) : List Nat × Nat :=
  let p0 := put (buf, 0) inst
  let p1 := if f.addr4byte then put p0 ((addr >>> 24) % 256) else p0
  let p2 := put p1 ((addr >>> 16) % 256)
  let p3 := put p2 ((addr >>> 8) % 256)
  put p3 (addr % 256)

/-- Method `setInstWithAddr`: the buffer after the call. -/
def setInstWithAddr (f : SpiFlash) (inst addr : Nat) (buf : List Nat) : List Nat :=
  (setInstWithAddrP f inst addr buf).1

/-- Method `getInstWithAddrSize`. -/
def getInstWithAddrSize (f : SpiFlash) : Nat := if f.addr4byte then 5 else 4

/-- The local `uint8_t txBuf[5]` before it is filled (indeterminate, modelled as zeros). -/
def txBuf5 : List Nat := [0, 0, 0, 0, 0]

/-- The first transfer of an addressed command:
`setInstWithAddr(inst, addr, txBuf); spi.transfer(txBuf, NULL, getInstWithAddrSize(), NULL)`. -/
def frameSeg (f : SpiFlash) (inst addr : Nat) : Seg :=
  { tx := some ((setInstWithAddr f inst addr txBuf5).take (getInstWithAddrSize f)),
    rx := false, len := getInstWithAddrSize f }

/-- The addresses a command frame of the driver can express. -/
def addrWidth (f : SpiFlash) : Nat := if f.addr4byte then 2 ^ 32 else 2 ^ 24

/-! ## Chunking engine -/

/-- The chunk length of `readData` and `writeData`:
`pageOffset = addr % pageSize; pageStart = addr - pageOffset;
 count = (pageStart + pageSize) - addr; if (count > bufLen) count = bufLen;`. -/
def chunkCount (pageSize addr bufLen : Nat) : Nat :=
  let pageOffset := addr % pageSize
  let pageStart := sub32 addr pageOffset
  let count := sub32 (add32 pageStart pageSize) addr
  if count > bufLen then bufLen else count

/-- Storing the received bytes `rx` at offset `o` of a buffer. -/
def storeAt (buf : List Nat) (o : Nat) (rx : List Nat) : List Nat :=
  buf.take o ++ rx ++ buf.drop (o + rx.length)

/-- The `while` loop of `readData`. `buf` is the caller's buffer and `cur` the offset of
`curBuf` in it. The first argument bounds the number of iterations. -/
def readLoop {σ : Type} (P : Port σ) (f : SpiFlash) :
    Nat → Nat → List Nat → Nat → Nat → Sys σ → Option (List Nat × Sys σ)
  | 0, _, buf, _, bufLen, s => if bufLen > 0 then none else some (buf, s)
  | n + 1, addr, buf, cur, bufLen, s =>
    if bufLen > 0 then
      if f.pageSize = 0 then none
      else
        let count := chunkCount f.pageSize addr bufLen
        let r := transact P [frameSeg f 0x03 addr, { tx := none, rx := true, len := bufLen }] s
        readLoop P f n (add32 addr count) (storeAt buf cur r.1) (cur + count) (bufLen - count) r.2
    else some (buf, s)

/-- Method `readData`. The loop runs at most `bufLen` times. -/
def readData {σ : Type} (P : Port σ) (f : SpiFlash) (addr : Nat) (buf : List Nat) (bufLen : Nat)
    (s : Sys σ) : Option (List Nat × Sys σ) :=
  readLoop P f bufLen addr buf 0 bufLen s

/-- The exchange of `writeEnable`. -/
def wrenSegs : List Seg := [{ tx := some [0x06], rx := false, len := 1 }]

/-- Method `writeEnable` (WREN). -/
def writeEnable {σ : Type} (P : Port σ) (f : SpiFlash) (s : Sys σ) : Sys σ :=
  let s1 := (transact P wrenSegs s).2
  if f.writeEnableDelayUs > 0 then sysDelayMicroseconds P f.writeEnableDelayUs s1 else s1

/-- The `while` loop of `writeData`. `cur` is the data from `curBuf` on. The first argument
bounds the number of iterations, `fuel` the polls of each completion wait. -/
def writeLoop {σ : Type} (P : Port σ) (f : SpiFlash) (fuel : Nat) :
    Nat → Nat → List Nat → Nat → Sys σ → Option (Sys σ)
  | 0, _, _, bufLen, s => if bufLen > 0 then none else some s
  | n + 1, addr, cur, bufLen, s =>
    if bufLen > 0 then
      if f.pageSize = 0 then none
      else
        let count := chunkCount f.pageSize addr bufLen
        let s1 := writeEnable P f s
        let s2 := (transact P [frameSeg f 0x02 addr,
                    { tx := some (cur.take count), rx := false, len := count }] s1).2
        match waitForWriteComplete P f fuel f.pageProgramTimeoutMs s2 with
        | none => none
        | some s3 => writeLoop P f fuel n (add32 addr count) (cur.drop count) (bufLen - count) s3
    else some s

/-- Method `writeData`. The loop runs at most `bufLen` times. -/
def writeData {σ : Type} (P : Port σ) (f : SpiFlash) (fuel : Nat) (addr : Nat) (buf : List Nat)
    (bufLen : Nat) (s : Sys σ) : Option (Sys σ) :=
  match waitForWriteComplete P f fuel 0 s with
  | none => none
  | some s1 => writeLoop P f fuel bufLen addr buf bufLen s1

/-! ## Erase, reset, power -/

/-- Method `sectorErase`. -/
def sectorErase {σ : Type} (P : Port σ) (f : SpiFlash) (fuel : Nat) (addr : Nat)
    (s : Sys σ) : Option (Sys σ) :=
  match waitForWriteComplete P f fuel 0 s with
  | none => none
  | some s1 =>
    let s2 := writeEnable P f s1
    let s3 := (transact P [frameSeg f 0x20 addr] s2).2
    waitForWriteComplete P f fuel f.sectorEraseTimeoutMs s3

/-- Method `blockErase`. -/
def blockErase {σ : Type} (P : Port σ) (f : SpiFlash) (fuel : Nat) (addr : Nat)
    (s : Sys σ) : Option (Sys σ) :=
  match waitForWriteComplete P f fuel 0 s with
  | none => none
  | some s1 =>
    let s2 := writeEnable P f s1
    let s3 := (transact P [frameSeg f 0xD8 addr] s2).2
    waitForWriteComplete P f fuel f.chipEraseTimeoutMs s3

/-- Method `chipErase`. -/
def chipErase {σ : Type} (P : Port σ) (f : SpiFlash) (fuel : Nat)
    (s : Sys σ) : Option (Sys σ) :=
  match waitForWriteComplete P f fuel 0 s with
  | none => none
  | some s1 =>
    let s2 := writeEnable P f s1
    let s3 := (transact P [{ tx := some [0xC7], rx := false, len := 1 }] s2).2
    waitForWriteComplete P f fuel f.chipEraseTimeoutMs s3

/-- Method `resetDevice`. The member `addr4byte` is not touched. -/
def resetDevice {σ : Type} (P : Port σ) (f : SpiFlash) (fuel : Nat)
    (s : Sys σ) : Option (Sys σ) :=
  match waitForWriteComplete P f fuel 0 s with
  | none => none
  | some s1 =>
    let s2 := (transact P [{ tx := some [0x66], rx := false, len := 1 }] s1).2
    let s3 := sysDelayMicroseconds P 1 s2
    let s4 := (transact P [{ tx := some [0x99], rx := false, len := 1 }] s3).2
    some (sysDelayMicroseconds P 1 s4)

/-- Method `wakeFromSleep`. -/
def wakeFromSleep {σ : Type} (P : Port σ) (s : Sys σ) : Sys σ :=
  sysDelayMicroseconds P 3 (transact P [{ tx := some [0xab], rx := false, len := 1 }] s).2

/-- Method `begin`: `spi.begin(cs); digitalWrite(cs, HIGH); wakeFromSleep();`. The bus set-up
belongs to the port; what reaches the chip is the wake-up command. -/
def begin {σ : Type} (P : Port σ) (s : Sys σ) : Sys σ := wakeFromSleep P s

/-- Method `deepPowerDown`. -/
def deepPowerDown {σ : Type} (P : Port σ) (s : Sys σ) : Sys σ :=
  (transact P [{ tx := some [0xb9], rx := false, len := 1 }] s).2

/-- Method `set4ByteAddressing`: the result, the driver object after the call, the system. -/
def set4ByteAddressing {σ : Type} (P : Port σ) (f : SpiFlash) (enable : Bool)
    (s : Sys σ) : Bool × SpiFlash × Sys σ :=
  let s1 := (transact P [{ tx := some [if enable then 0xb7 else 0xe9], rx := false, len := 1 }] s).2
  let c := readConfiguration P s1
  if (c.1 &&& 0x20) ≠ 0 then
    if !enable then (false, f, c.2)
    else (true, { f with addr4byte := enable }, c.2)
  else
    if enable then (false, f, c.2)
    else (true, { f with addr4byte := enable }, c.2)

/-! ## A NOR flash chip behind the port

The hardware the driver talks to, as the data sheets of the supported parts describe it:
the read command auto-increments, page program ANDs the data into the array and wraps inside
the hardware page, erase sets bytes to 0xFF, a mutating command needs the write-enable latch
and is ignored while an operation is in progress, and the write-in-progress bit stays set for
a number of status polls after a mutating command. -/

/-- A NOR flash chip on the bus, together with the clock of the board. -/
structure Nor where
  capacity : Nat
  pageSize : Nat
  sectorSize : Nat
  blockSize : Nat
  jedec : List Nat
  programPolls : Nat
  erasePolls : Nat
  statusPolls : Nat
  clock : Nat → Nat
  flash : Nat → Nat
  wel : Bool
  busy : Nat
  addr4 : Bool
  resetEnabled : Bool
  srHigh : Nat
  reads : Nat

/-- The bytes on MOSI during one exchange (a NULL transmit buffer clocks out zeros). -/
def mosi : List Seg → List Nat
  | [] => []
  | g :: gs =>
    (match g.tx with
     | some l => l.take g.len
     | none => List.replicate g.len 0) ++ mosi gs

/-- The bytes stored into the receive buffers, given the byte on MISO at each position. -/
def rxBytes (miso : Nat → Nat) : Nat → List Seg → List Nat
  | _, [] => []
  | pos, g :: gs =>
    (if g.rx then (List.range g.len).map (fun i => miso (pos + i)) else [])
      ++ rxBytes miso (pos + g.len) gs

/-- Number of address bytes the chip expects. -/
def Nor.addrLen (c : Nor) : Nat := if c.addr4 then 4 else 3

/-- Big-endian value of the address bytes. -/
def decodeAddr (bytes : List Nat) : Nat := bytes.foldl (fun a b => a * 256 + b) 0

/-- The address of an addressed command; address bits above the capacity are ignored. -/
def Nor.cmdAddr (c : Nor) (m : List Nat) : Nat :=
  decodeAddr ((m.drop 1).take c.addrLen) % c.capacity

/-- The status register: bit 0 write-in-progress, bit 1 write-enable latch. -/
def Nor.status (c : Nor) : Nat :=
  (if c.busy > 0 then 1 else 0) + 2 * (if c.wel then 1 else 0) + 4 * (c.srHigh % 64)

/-- The configuration register: bit 5 is the 4-byte addressing mode. -/
def Nor.config (c : Nor) : Nat := if c.addr4 then 0x20 else 0

/-- The byte the chip drives on MISO at position `i` of an exchange with MOSI bytes `m`. -/
def Nor.miso (c : Nor) (m : List Nat) (i : Nat) : Nat :=
  match m.head? with
  | none => 0xFF
  | some op =>
    if op = 0x05 then c.status
    else if c.busy > 0 then 0xFF
    else if op = 0x15 then c.config
    else if op = 0x9f then (if i = 0 then 0xFF else c.jedec.getD (i - 1) 0xFF)
    else if op = 0x03 then
      (if i < 1 + c.addrLen then 0xFF
       else c.flash ((c.cmdAddr m + (i - (1 + c.addrLen))) % c.capacity))
    else 0xFF

/-- Page program: the bytes are ANDed into the array one after the other, the offset wrapping
inside the page that starts at `base`. -/
def programFrom (ps base : Nat) : Nat → List Nat → (Nat → Nat) → (Nat → Nat)
  | _, [], fl => fl
  | off, d :: ds, fl =>
    programFrom ps base ((off + 1) % ps) ds (fun x => if x = base + off then fl x &&& d else fl x)

/-- Erase of the `size` bytes from `base` on. -/
def eraseRange (base size : Nat) (fl : Nat → Nat) : Nat → Nat :=
  fun x => if base ≤ x ∧ x < base + size then 0xFF else fl x

/-- The effect of a command other than read-status on an idle chip. -/
def Nor.exec (c : Nor) (op : Nat) (m : List Nat) : Nor :=
  if op = 0x06 then { c with wel := true }
  else if op = 0x04 then { c with wel := false }
  else if op = 0x02 then
    (if c.wel then
      { c with
        flash := programFrom c.pageSize (c.cmdAddr m - c.cmdAddr m % c.pageSize)
                   (c.cmdAddr m % c.pageSize) (m.drop (1 + c.addrLen)) c.flash,
        wel := false, busy := c.programPolls }
     else c)
  else if op = 0x20 then
    (if c.wel then
      { c with
        flash := eraseRange (c.cmdAddr m - c.cmdAddr m % c.sectorSize) c.sectorSize c.flash,
        wel := false, busy := c.erasePolls }
     else c)
  else if op = 0xD8 then
    (if c.wel then
      { c with
        flash := eraseRange (c.cmdAddr m - c.cmdAddr m % c.blockSize) c.blockSize c.flash,
        wel := false, busy := c.erasePolls }
     else c)
  else if op = 0xC7 then
    (if c.wel then
      { c with flash := fun _ => 0xFF, wel := false, busy := c.erasePolls }
     else c)
  else if op = 0x01 then
    (if c.wel then
      { c with srHigh := m.getD 1 0 / 4, wel := false, busy := c.statusPolls }
     else c)
  else if op = 0xb7 then { c with addr4 := true }
  else if op = 0xe9 then { c with addr4 := false }
  else if op = 0x99 then
    (if c.resetEnabled then { c with addr4 := false, wel := false } else c)
  else c

/-- The chip after an exchange with MOSI bytes `m`. A status read is always answered and
consumes one poll of the operation in progress; every other command is ignored while the
chip is busy. -/
def Nor.step (c : Nor) (m : List Nat) : Nor :=
  match m.head? with
  | none => c
  | some op =>
    if op = 0x05 then { c with busy := c.busy - 1 }
    else if c.busy > 0 then c
    else { c.exec op m with resetEnabled := decide (op = 0x66) }

/-- The port of a board with the chip `Nor`: the `n`-th call of `millis()` returns `clock n`. -/
def norPort : Port Nor where
  transfer := fun segs c => (rxBytes (c.miso (mosi segs)) 0 segs, c.step (mosi segs))
  millis := fun c => (c.clock c.reads, { c with reads := c.reads + 1 })
  delay := fun _ c => c
  delayMicroseconds := fun _ c => c

/-- An erased, idle 16 MiB chip in 3-byte mode, with a clock that stands still. -/
def blankNor : Nor :=
  { capacity := 16777216, pageSize := 256, sectorSize := 4096, blockSize := 65536,
    jedec := [0x9d, 0x60, 0x18], programPolls := 2, erasePolls := 5, statusPolls := 1,
    clock := fun _ => 0, flash := fun _ => 0xFF, wel := false, busy := 0, addr4 := false,
    resetEnabled := false, srHigh := 0, reads := 0 }

/-- An erased, idle 32 MiB chip in 4-byte mode, with a clock that stands still. -/
def bigNor : Nor :=
  { blankNor with capacity := 33554432, jedec := [0xc2, 0x20, 0x19], addr4 := true }

/-- The driver after a successful `set4ByteAddressing(true)`. -/
def SpiFlash4Byte : SpiFlash := { SpiFlashMacronix with addr4byte := true }

/-- The system at power-on: nothing in the trace yet. -/
def boot {σ : Type} (d : σ) : Sys σ := { dev := d, trace := [] }

/-! ## Describing traces -/

/-- The event of one `readStatus()` call. -/
def statusEvent : Event := Event.transaction statusSegs

/-- The events of `writeEnable()`. -/
def wrenEvents (f : SpiFlash) : List Event :=
  Event.transaction wrenSegs ::
    (if f.writeEnableDelayUs > 0 then [Event.delayMicroseconds f.writeEnableDelayUs] else [])

/-- The events of one completion wait: a first status read, then only status reads and
`delay(1)` calls. -/
def IsWaitTrace (w : List Event) : Prop :=
  w.head? = some statusEvent ∧ ∀ e ∈ w, e = statusEvent ∨ e = Event.delay 1

instance : DecidablePred IsWaitTrace := fun w => by unfold IsWaitTrace; infer_instance

/-- The opcode of an exchange: the first byte sent. -/
def Event.opcode : Event → Option Nat
  | Event.transaction ({ tx := some (op :: _), rx := _, len := _ } :: _) => some op
  | _ => none

/-- The exchanges of a trace, without the delays. -/
def exchanges : List Event → List (List Seg)
  | [] => []
  | Event.transaction segs :: es => segs :: exchanges es
  | _ :: es => exchanges es

/-- The exchanges of a trace that carry the opcode `op`. -/
def exchangesOf (op : Nat) (ev : List Event) : List (List Seg) :=
  (exchanges ev).filter (fun segs => (Event.transaction segs).opcode = some op)

/-- The mutating commands: page program, sector erase, block erase, chip erase, write status. -/
def isMutating (e : Event) : Bool :=
  e.opcode = some 0x02 || e.opcode = some 0x20 || e.opcode = some 0xD8 ||
    e.opcode = some 0xC7 || e.opcode = some 0x01

/-- Scan of a trace for the completion-wait protocol. The flag says whether the status
register was read since the last mutating command; a mutating command with the flag down
fails the scan. The result is the flag at the end of the trace. -/
def waitScan : Bool → List Event → Option Bool
  | polled, [] => some polled
  | polled, e :: es =>
    if isMutating e then (if polled then waitScan false es else none)
    else if e.opcode = some 0x05 then waitScan true es
    else waitScan polled es

/-- The completion-wait protocol on the events of one operation: every mutating command comes
after a status read that follows the previous mutating command, and the trace ends with a
status read after the last mutating command. -/
def WaitProtocol (ev : List Event) : Prop := waitScan false ev = some true

instance : DecidablePred WaitProtocol := fun ev => by unfold WaitProtocol; infer_instance

/-- One page-program exchange: start address, number of data bytes, payload. -/
structure Chunk where
  addr : Nat
  count : Nat
  data : List Nat
deriving DecidableEq, Repr

/-- The chunks as the specification words them: `page_offset = addr mod page_size`,
`chunk = min(len, page_size - page_offset)`, then `addr += chunk`, `len -= chunk` and the
buffer cursor advances, until `len == 0`. The first argument bounds the number of chunks. -/
def specChunks (pageSize : Nat) : Nat → Nat → List Nat → Nat → List Chunk
  | 0, _, _, _ => []
  | n + 1, addr, cur, len =>
    if len = 0 then []
    else
      { addr := addr, count := min len (pageSize - addr % pageSize),
        data := cur.take (min len (pageSize - addr % pageSize)) } ::
      specChunks pageSize n (add32 addr (min len (pageSize - addr % pageSize)))
        (cur.drop (min len (pageSize - addr % pageSize)))
        (len - min len (pageSize - addr % pageSize))

/-- Number of bytes carried by the first `k` chunks of a list. -/
def sent (cs : List Chunk) (k : Nat) : Nat := ((cs.take k).map Chunk.count).sum

/-- The PAGE_PROGRAM exchange of a chunk. -/
def programSegs (f : SpiFlash) (c : Chunk) : List Seg :=
  [frameSeg f 0x02 c.addr, { tx := some c.data, rx := false, len := c.count }]

/-- The events `writeData` produces for its chunks: for each chunk the write-enable, the
PAGE_PROGRAM exchange and a completion wait. -/
inductive WriteShape (f : SpiFlash) : List Chunk → List Event → Prop where
  | nil : WriteShape f [] []
  | cons (c : Chunk) (cs : List Chunk) (w ev : List Event) :
      IsWaitTrace w → WriteShape f cs ev →
      WriteShape f (c :: cs) (wrenEvents f ++ [Event.transaction (programSegs f c)] ++ w ++ ev)

/-- Every completion wait on this port comes to an end. -/
def Live {σ : Type} (P : Port σ) (f : SpiFlash) : Prop :=
  ∀ (timeout : Nat) (s : Sys σ), ∃ n, (waitForWriteComplete P f n timeout s).isSome = true

/-- The command pattern of an erase operation that returned `result` from the state `s`:
a completion wait with the default timeout (`k1 ≥ 1` status reads), the write-enable
exchange, the one exchange `eraseSegs`, a completion wait (`k2 ≥ 1` status reads). -/
def ErasePattern {σ : Type} (P : Port σ) (f : SpiFlash) (fuel : Nat) (s : Sys σ)
    (result : Option (Sys σ)) (eraseSegs : List Seg) : Prop :=
  ∃ (s1 r : Sys σ) (ev1 ev : List Event) (k1 k2 : Nat),
    waitForWriteComplete P f fuel f.waitWriteCompletionTimeoutMs s = some s1 ∧
    s1.trace = s.trace ++ ev1 ∧ exchanges ev1 = List.replicate k1 statusSegs ∧
    result = some r ∧ r.trace = s.trace ++ ev ∧ 1 ≤ k1 ∧ 1 ≤ k2 ∧
    exchanges ev =
      List.replicate k1 statusSegs ++ [wrenSegs, eraseSegs] ++ List.replicate k2 statusSegs

/-! ## Observing a timeout -/

/-- A chip that never finishes: every status read reports write-in-progress, and every
reading of the clock is one millisecond after the previous one. The state is the next
reading of the clock. -/
def stuckPort : Port Nat where
  transfer := fun segs t => (rxBytes (fun _ => 0xFF) 0 segs, t)
  millis := fun t => (t, t + 1)
  delay := fun _ t => t
  delayMicroseconds := fun _ t => t

/-- The number of status reads at the end of a trace, after the last other exchange. On
`stuckPort` this is the number of milliseconds the last completion wait lasted, that is, the
timeout it was given. -/
def finalPolls (ev : List Event) : Nat :=
  ((exchanges ev).reverse.takeWhile (fun g => decide (g = statusSegs))).length

/-- The write-in-progress bit clears within the timeout `T`: the chip stays busy for at most
`B` status polls, and `B` consecutive readings of the clock span less than `T` milliseconds
(as the driver measures them, in 32-bit arithmetic). -/
def Timely (clock : Nat → Nat) (B T : Nat) : Prop :=
  ∀ i k, 1 ≤ k → k ≤ B → sub32 (clock (i + k)) (clock i) < T

/-- The parts of the chip that a write leaves alone. -/
def SameSetup (c d : Nor) : Prop :=
  d.capacity = c.capacity ∧ d.pageSize = c.pageSize ∧ d.programPolls = c.programPolls ∧
    d.addr4 = c.addr4 ∧ d.clock = c.clock

/-- The timeout `waitForWriteComplete(timeout)` really uses. -/
def effectiveTimeout (f : SpiFlash) (timeout : Nat) : Nat :=
  if timeout = 0 then f.waitWriteCompletionTimeoutMs else timeout

/-! ## The loop variables of the chunking engine -/

/-- The chunk length before it is capped by the remaining length: the expression
`(pageStart + pageSize) - addr` with `pageStart = addr - addr % pageSize`, in 32-bit unsigned
arithmetic. -/
def pageRemain (pageSize addr : Nat) : Nat :=
  sub32 (add32 (sub32 addr (addr % pageSize)) pageSize) addr

/-- The variables `addr`, `curBuf - buf` and `bufLen` of `readData` at the start of one
iteration; `request` (the remaining length) is what the data pull of the iteration asks for. -/
structure Pull where
  addr : Nat
  cursor : Nat
  request : Nat
deriving DecidableEq, Repr

/-- The iterations of the `while` loop of `readData`, from the updates
`addr += count; curBuf += count; bufLen -= count`. The first argument bounds their number. -/
def readPulls (pageSize : Nat) : Nat → Nat → Nat → Nat → List Pull
  | 0, _, _, _ => []
  | n + 1, addr, cur, bufLen =>
    if bufLen > 0 then
      { addr := addr, cursor := cur, request := bufLen } ::
        readPulls pageSize n (add32 addr (chunkCount pageSize addr bufLen))
          (cur + chunkCount pageSize addr bufLen) (bufLen - chunkCount pageSize addr bufLen)
    else []

/-- The READ exchange of one iteration of `readData`. -/
def readSegs (f : SpiFlash) (p : Pull) : List Seg :=
  [frameSeg f 0x03 p.addr, { tx := none, rx := true, len := p.request }]

/-- Storing received blocks one after the other, each at its own offset. -/
def storeAll : List Nat → List (Nat × List Nat) → List Nat
  | buf, [] => buf
  | buf, (o, rx) :: rest => storeAll (storeAt buf o rx) rest

/-- The number of chunks the claim states: `ceil((addr mod pageSize + len) / pageSize)` for a
positive length, none for length 0. -/
def iterCount (pageSize addr len : Nat) : Nat :=
  if len = 0 then 0 else (addr % pageSize + len + pageSize - 1) / pageSize

/-! ## A scripted chip and clock -/

/-- A chip given by the sequence of the values of its status register, and a clock given by
the sequence of its readings; `polls` and `reads` count how many of each were consumed. -/
structure Script where
  status : Nat → Nat
  clock : Nat → Nat
  polls : Nat
  reads : Nat

/-- The port of a scripted chip: the `n`-th status read returns `status n`, the `n`-th call of
`millis()` returns `clock n`; other exchanges receive zeros. -/
def scriptPort : Port Script where
  transfer := fun segs d =>
    if segs = statusSegs then ([0, d.status d.polls], { d with polls := d.polls + 1 })
    else (rxBytes (fun _ => 0) 0 segs, d)
  millis := fun d => (d.clock d.reads, { d with reads := d.reads + 1 })
  delay := fun _ d => d
  delayMicroseconds := fun _ d => d

/-- The `j`-th poll of a wait entered in the state `d` with timeout `T` ends the wait: its
status has bit 0 (write-in-progress) clear, or the time elapsed since entry, as the driver
measures it, has reached `T`. -/
def Script.stops (d : Script) (T j : Nat) : Prop :=
  d.status (d.polls + j) &&& STATUS_WIP = 0 ∨
    T ≤ sub32 (d.clock (d.reads + 1 + j)) (d.clock d.reads)

instance (d : Script) (T j : Nat) : Decidable (d.stops T j) := by
  unfold Script.stops; infer_instance

/-- The events of a poll after which the wait goes on: the status read, then `delay(1)` when
the timeout exceeds 500. -/
def busyPoll (T : Nat) : List Event :=
  statusEvent :: (if T > 500 then [Event.delay 1] else [])

/-! ## The write-enable protocol -/

/-- Scan of the exchanges of a trace for the write-enable protocol. The flag says whether
the previous exchange was the write-enable `[0x06]`; a mutating command with the flag down
fails the scan. -/
def wrenScan : Bool → List (List Seg) → Bool
  | _, [] => true
  | armed, g :: gs =>
    if isMutating (Event.transaction g) then armed && wrenScan false gs
    else wrenScan (decide (g = wrenSegs)) gs

/-- The write-enable protocol on the events of one operation: every mutating command is
immediately preceded by a write-enable exchange, with no other exchange in between. -/
def WrenProtocol (ev : List Event) : Prop := wrenScan false (exchanges ev) = true

instance : DecidablePred WrenProtocol := fun ev => by unfold WrenProtocol; infer_instance

/-- A 32 MiB chip at power-on (3-byte mode) whose byte at address `x` is `(x / 256) % 256`. -/
def patternNor : Nor :=
  { blankNor with capacity := 33554432, flash := fun x => (x / 256) % 256 }

/-! # Theorems -/

/-! ## Bytes and words -/

theorem and_255 (x : Nat) : x &&& 0xFF = x % 256 := Nat.and_pow_two_sub_one_eq_mod x 8

theorem jedec_pack (a b c : Nat) (hb : b < 256) (hc : c < 256) :
    (a <<< 16) ||| (b <<< 8) ||| c = a * 65536 + b * 256 + c := by
  have h1 : (a <<< 16) ||| (b <<< 8) = a * 65536 + b * 256 := by
    have := Nat.mul_add_lt_is_or (show b * 256 < 2 ^ 16 by omega) a
    simp only [Nat.shiftLeft_eq]
    rw [show a * 2 ^ 16 = 2 ^ 16 * a by ring, ← this]; norm_num; ring
  rw [h1]
  have := Nat.mul_add_lt_is_or (show c < 2 ^ 8 by omega) (a * 256 + b)
  rw [show a * 65536 + b * 256 = 2 ^ 8 * (a * 256 + b) by ring, ← this]

/-! ## Command encoder -/

/-- Claim C5. For a 5-byte buffer, `setInstWithAddr` stores exactly `getInstWithAddrSize()`
bytes: `[inst, a23..16, a15..8, a7..0]` in 3-byte mode and `[inst, a31..24, .., a7..0]` in
4-byte mode; the rest of the buffer is untouched; the address bytes are big-endian and
decode to `addr mod 2^24`, respectively `addr mod 2^32` (truncation, no overflow check). -/
theorem setInstWithAddr_frame (f : SpiFlash) (inst addr : Nat) (buf : List Nat)
    (hbuf : buf.length = 5) :
    (setInstWithAddrP f inst addr buf).2 = getInstWithAddrSize f ∧
    (setInstWithAddr f inst addr buf).take (getInstWithAddrSize f) =
      (if f.addr4byte then
        [inst, (addr >>> 24) &&& 0xFF, (addr >>> 16) &&& 0xFF, (addr >>> 8) &&& 0xFF,
          addr &&& 0xFF]
       else [inst, (addr >>> 16) &&& 0xFF, (addr >>> 8) &&& 0xFF, addr &&& 0xFF]) ∧
    (setInstWithAddr f inst addr buf).drop (getInstWithAddrSize f)
      = buf.drop (getInstWithAddrSize f) ∧
    decodeAddr (((setInstWithAddr f inst addr buf).take (getInstWithAddrSize f)).drop 1)
      = (if f.addr4byte then addr % 2 ^ 32 else addr % 2 ^ 24) := by
  match buf, hbuf with
  | [b0, b1, b2, b3, b4], _ =>
    cases h4 : f.addr4byte <;>
      simp [setInstWithAddr, setInstWithAddrP, put, getInstWithAddrSize, h4, and_255, decodeAddr,
        Nat.shiftRight_eq_div_pow] <;> omega

theorem setInstWithAddr_frame_witness :
    txBuf5.length = 5 ∧
    (setInstWithAddrP SpiFlashDefault 0x20 8192 txBuf5).2 = getInstWithAddrSize SpiFlashDefault ∧
    (setInstWithAddr SpiFlashDefault 0x20 8192 txBuf5).take (getInstWithAddrSize SpiFlashDefault) =
      (if SpiFlashDefault.addr4byte then
        [0x20, (8192 >>> 24) &&& 0xFF, (8192 >>> 16) &&& 0xFF, (8192 >>> 8) &&& 0xFF,
          8192 &&& 0xFF]
       else [0x20, (8192 >>> 16) &&& 0xFF, (8192 >>> 8) &&& 0xFF, 8192 &&& 0xFF]) ∧
    (setInstWithAddr SpiFlashDefault 0x20 8192 txBuf5).drop (getInstWithAddrSize SpiFlashDefault)
      = txBuf5.drop (getInstWithAddrSize SpiFlashDefault) ∧
    decodeAddr (((setInstWithAddr SpiFlashDefault 0x20 8192 txBuf5).take
        (getInstWithAddrSize SpiFlashDefault)).drop 1)
      = (if SpiFlashDefault.addr4byte then 8192 % 2 ^ 32 else 8192 % 2 ^ 24) :=
  ⟨rfl, setInstWithAddr_frame SpiFlashDefault 0x20 8192 txBuf5 rfl⟩

/-! ## Addressing mode and identification -/

/-- Claim C6. `set4ByteAddressing(enable)` sends 0xB7 (enable) or 0xE9 (disable), then re-reads
the configuration register `c`; it returns true iff `((c & 0x20) != 0) == enable`; on true
the driver's addressing mode becomes `enable`, on false the driver object is unchanged. -/
theorem set4ByteAddressing_spec {σ : Type} (P : Port σ) (f : SpiFlash) (enable : Bool)
    (s : Sys σ) :
    (set4ByteAddressing P f enable s).2.2.trace =
      s.trace ++ [Event.transaction
                    [{ tx := some [if enable then 0xb7 else 0xe9], rx := false, len := 1 }],
                  Event.transaction configSegs] ∧
    ((set4ByteAddressing P f enable s).1 = true ↔
      decide (((P.transfer configSegs
        (P.transfer [{ tx := some [if enable then 0xb7 else 0xe9], rx := false, len := 1 }]
          s.dev).2).1.getD 1 0 &&& 0x20) ≠ 0) = enable) ∧
    ((set4ByteAddressing P f enable s).1 = true →
      (set4ByteAddressing P f enable s).2.1 = { f with addr4byte := enable }) ∧
    ((set4ByteAddressing P f enable s).1 = false →
      (set4ByteAddressing P f enable s).2.1 = f) := by
  unfold set4ByteAddressing
  cases enable <;> simp only [readConfiguration, transact] <;> split_ifs <;> simp_all

theorem set4ByteAddressing_spec_witness :
    (set4ByteAddressing norPort SpiFlashDefault true (boot blankNor)).1 = true ∧
    (set4ByteAddressing norPort SpiFlashDefault true (boot blankNor)).2.1 =
      { SpiFlashDefault with addr4byte := true } ∧
    (set4ByteAddressing stuckPort SpiFlashDefault false (boot 0)).1 = false ∧
    (set4ByteAddressing stuckPort SpiFlashDefault false (boot 0)).2.1 = SpiFlashDefault :=
  ⟨by decide,
   (set4ByteAddressing_spec norPort SpiFlashDefault true (boot blankNor)).2.2.1 (by decide),
   by decide,
   (set4ByteAddressing_spec stuckPort SpiFlashDefault false (boot 0)).2.2.2 (by decide)⟩

/-- Claim C7. For a 4-byte response `rx` to the JEDEC ID exchange (opcode 0x9F), `jedecIdRead()`
returns `rx[1]*65536 + rx[2]*256 + rx[3]`, a value below `2^24` whose bits 16..23 are the
manufacturer byte; `isValid()` is true iff `rx[1]` is the profile's `manufacturerId`
(0x9D default and ISSI, 0xEF Winbond, 0xC2 Macronix); `isValid()` only adds the exchange to the
trace, and every call that gets the same response returns the same result. -/
theorem jedecIdRead_isValid_spec {σ : Type} (P : Port σ) (f : SpiFlash) (s : Sys σ)
    (rx : List Nat) (hrx : (P.transfer jedecSegs s.dev).1 = rx) (hlen : rx.length = 4)
    (hbyte : ∀ b ∈ rx, b < 256) :
    (jedecIdRead P s).1 = rx.getD 1 0 * 65536 + rx.getD 2 0 * 256 + rx.getD 3 0 ∧
    (jedecIdRead P s).1 < 2 ^ 24 ∧
    ((jedecIdRead P s).1 >>> 16) &&& 0xff = rx.getD 1 0 ∧
    (jedecIdRead P s).2.trace = s.trace ++ [Event.transaction jedecSegs] ∧
    ((isValid P f s).1 = true ↔ rx.getD 1 0 = f.manufacturerId) ∧
    (isValid P f s).2.trace = s.trace ++ [Event.transaction jedecSegs] ∧
    (∀ s2 : Sys σ, (P.transfer jedecSegs s2.dev).1 = rx →
      (isValid P f s2).1 = (isValid P f s).1) ∧
    SpiFlashDefault.manufacturerId = 0x9d ∧ SpiFlashISSI.manufacturerId = 0x9d ∧
    SpiFlashWinbond.manufacturerId = 0xef ∧ SpiFlashMacronix.manufacturerId = 0xc2 := by
  match rx, hlen with
  | [r0, r1, r2, r3], _ =>
    have h1 : r1 < 256 := hbyte r1 (by simp)
    have h2 : r2 < 256 := hbyte r2 (by simp)
    have h3 : r3 < 256 := hbyte r3 (by simp)
    have hv : (jedecIdRead P s).1 = r1 * 65536 + r2 * 256 + r3 := by
      simp [jedecIdRead, transact, hrx, jedec_pack _ _ _ h2 h3]
    have hm : ((jedecIdRead P s).1 >>> 16) &&& 0xff = r1 := by
      rw [hv, and_255, Nat.shiftRight_eq_div_pow]; omega
    refine ⟨by simpa using hv, by rw [hv]; omega, by simpa using hm, by simp [jedecIdRead, transact],
      ?_, by simp [isValid, jedecIdRead, transact], ?_, rfl, rfl, rfl, rfl⟩
    · simp only [isValid, hm, decide_eq_true_eq]
      simp; omega
    · intro s2 h2
      have e : (jedecIdRead P s2).1 = (jedecIdRead P s).1 := by
        simp [jedecIdRead, transact, hrx, h2]
      simp [isValid, e]

theorem jedecIdRead_isValid_spec_witness :
    (norPort.transfer jedecSegs (boot blankNor).dev).1 = [0xFF, 0x9d, 0x60, 0x18] ∧
    ((isValid norPort SpiFlashISSI (boot blankNor)).1 = true ↔
      [0xFF, 0x9d, 0x60, 0x18].getD 1 0 = SpiFlashISSI.manufacturerId) :=
  ⟨by decide, (jedecIdRead_isValid_spec norPort SpiFlashISSI (boot blankNor)
      [0xFF, 0x9d, 0x60, 0x18] (by decide) rfl (by decide)).2.2.2.2.1⟩

/-! ## Completion wait -/

theorem waitLoop_mono {σ : Type} (P : Port σ) : ∀ (n st T : Nat) (s r : Sys σ),
    waitLoop P n st T s = some r → ∀ m, n ≤ m → waitLoop P m st T s = some r := by
  intro n
  induction n with
  | zero => intro st T s r h; simp [waitLoop] at h
  | succ n ih =>
    intro st T s r h m hm
    obtain ⟨k, rfl⟩ : ∃ k, m = k + 1 := ⟨m - 1, by omega⟩
    simp only [waitLoop] at h ⊢
    split_ifs at h ⊢
    · exact ih _ _ _ _ h k (by omega)
    · exact ih _ _ _ _ h k (by omega)
    · exact h
    · exact h

theorem waitForWriteComplete_mono {σ : Type} (P : Port σ) (f : SpiFlash) (n t : Nat)
    (s r : Sys σ) (h : waitForWriteComplete P f n t s = some r) (m : Nat) (hm : n ≤ m) :
    waitForWriteComplete P f m t s = some r :=
  waitLoop_mono P n _ _ _ r h m hm

theorem waitForWriteComplete_default {σ : Type} (P : Port σ) (f : SpiFlash) (n : Nat)
    (s : Sys σ) :
    waitForWriteComplete P f n 0 s = waitForWriteComplete P f n f.waitWriteCompletionTimeoutMs s := by
  unfold waitForWriteComplete
  by_cases h : f.waitWriteCompletionTimeoutMs = 0 <;> simp [h]

theorem isWaitTrace_cons (w : List Event) (h : ∀ e ∈ w, e = statusEvent ∨ e = Event.delay 1) :
    IsWaitTrace (statusEvent :: w) := by
  refine ⟨rfl, ?_⟩
  intro e he
  rcases List.mem_cons.1 he with h1 | h1
  · exact Or.inl h1
  · exact h e h1

theorem waitLoop_trace {σ : Type} (P : Port σ) : ∀ (n st T : Nat) (s r : Sys σ),
    waitLoop P n st T s = some r → ∃ w, IsWaitTrace w ∧ r.trace = s.trace ++ w := by
  intro n
  induction n with
  | zero => intro st T s r h; simp [waitLoop] at h
  | succ n ih =>
    intro st T s r h
    simp only [waitLoop] at h
    split_ifs at h with h1 h2 h3
    · obtain ⟨w, hw, e⟩ := ih _ _ _ _ h
      refine ⟨statusEvent :: Event.delay 1 :: w, isWaitTrace_cons _ ?_, ?_⟩
      · intro x hx
        rcases List.mem_cons.1 hx with h1 | h1
        · exact Or.inr h1
        · exact hw.2 x h1
      · rw [e]; simp [sysDelay, sysMillis, isWriteInProgress, readStatus, transact, statusEvent]
    · obtain ⟨w, hw, e⟩ := ih _ _ _ _ h
      refine ⟨statusEvent :: w, isWaitTrace_cons _ hw.2, ?_⟩
      rw [e]; simp [sysMillis, isWriteInProgress, readStatus, transact, statusEvent]
    · refine ⟨[statusEvent], by decide, ?_⟩
      cases h; simp [sysMillis, isWriteInProgress, readStatus, transact, statusEvent]
    · refine ⟨[statusEvent], by decide, ?_⟩
      cases h; simp [isWriteInProgress, readStatus, transact, statusEvent]

theorem waitForWriteComplete_trace {σ : Type} (P : Port σ) (f : SpiFlash) (n t : Nat)
    (s r : Sys σ) (h : waitForWriteComplete P f n t s = some r) :
    ∃ w, IsWaitTrace w ∧ r.trace = s.trace ++ w := by
  obtain ⟨w, hw, e⟩ := waitLoop_trace P n _ _ _ r h
  exact ⟨w, hw, by simpa [sysMillis] using e⟩

theorem live_fuel {σ : Type} (P : Port σ) (f : SpiFlash) (hlive : Live P f) (t : Nat)
    (s : Sys σ) : ∃ n r, ∀ m, n ≤ m → waitForWriteComplete P f m t s = some r := by
  obtain ⟨n, hn⟩ := hlive t s
  obtain ⟨r, hr⟩ := Option.isSome_iff_exists.1 hn
  exact ⟨n, r, fun m hm => waitForWriteComplete_mono P f n t s r hr m hm⟩

/-! ## Erase operations -/

/-- The pattern shared by `sectorErase`, `blockErase` and `chipErase`. -/
theorem erase_pattern {σ : Type} (P : Port σ) (f : SpiFlash) (hlive : Live P f)
    (cmd : List Seg) (t : Nat) (s : Sys σ) :
    ∃ N, ∀ fuel, N ≤ fuel → ∃ (s1 r : Sys σ) (w1 w2 : List Event),
      waitForWriteComplete P f fuel f.waitWriteCompletionTimeoutMs s = some s1 ∧
      s1.trace = s.trace ++ w1 ∧ IsWaitTrace w1 ∧
      (match waitForWriteComplete P f fuel 0 s with
        | none => none
        | some s1 => waitForWriteComplete P f fuel t (transact P cmd (writeEnable P f s1)).2)
        = some r ∧
      r.trace = s.trace ++ w1 ++ wrenEvents f ++ [Event.transaction cmd] ++ w2 ∧
      IsWaitTrace w2 := by
  obtain ⟨n1, s1, h1⟩ := live_fuel P f hlive 0 s
  obtain ⟨n2, r, h2⟩ := live_fuel P f hlive t (transact P cmd (writeEnable P f s1)).2
  refine ⟨max n1 n2, fun fuel hf => ?_⟩
  have e1 := h1 fuel (by omega)
  have e2 := h2 fuel (by omega)
  obtain ⟨w1, hw1, t1⟩ := waitForWriteComplete_trace P f fuel 0 s s1 e1
  obtain ⟨w2, hw2, t2⟩ := waitForWriteComplete_trace P f fuel t _ r e2
  refine ⟨s1, r, w1, w2, by rw [← waitForWriteComplete_default]; exact e1, t1, hw1, ?_, ?_, hw2⟩
  · rw [e1]; exact e2
  · rw [t2]
    by_cases hd : f.writeEnableDelayUs > 0 <;>
      simp [transact, writeEnable, wrenEvents, sysDelayMicroseconds, hd, t1]

/-! ## The NOR chip: status polls -/

theorem nor_status_wip (c : Nor) : (c.status &&& STATUS_WIP ≠ 0) ↔ 0 < c.busy := by
  unfold Nor.status STATUS_WIP
  rw [Nat.and_one_is_mod]
  by_cases h : 0 < c.busy <;> cases c.wel <;> simp [h] <;> omega

theorem nor_isWriteInProgress (s : Sys Nor) :
    isWriteInProgress norPort s =
      (decide (0 < s.dev.busy),
       { dev := { s.dev with busy := s.dev.busy - 1 },
         trace := s.trace ++ [statusEvent] }) := by
  have h := nor_status_wip s.dev
  simp only [isWriteInProgress, readStatus, transact, norPort, statusSegs, mosi, rxBytes,
    Nor.miso, Nor.step, statusEvent]
  simp [List.range_succ]
  by_cases hb : 0 < s.dev.busy
  · simp [hb, h.2 hb]
  · have : s.dev.status &&& STATUS_WIP = 0 := by
      by_contra hc; exact hb (h.1 hc)
    simp [hb, this]

theorem nor_waitLoop_some : ∀ (b st T : Nat) (s : Sys Nor), s.dev.busy ≤ b →
    (waitLoop norPort (b + 1) st T s).isSome = true := by
  intro b
  induction b with
  | zero =>
    intro st T s hb
    have : ¬ 0 < s.dev.busy := by omega
    simp [waitLoop, nor_isWriteInProgress, this]
  | succ b ih =>
    intro st T s hb
    rw [waitLoop]
    simp only [nor_isWriteInProgress]
    split_ifs
    · apply ih; simp [sysDelay, sysMillis, norPort]; omega
    · apply ih; simp [sysMillis, norPort]; omega
    · rfl
    · rfl

theorem norPort_live (f : SpiFlash) : Live norPort f := by
  intro t s
  exact ⟨s.dev.busy + 1, nor_waitLoop_some _ _ _ _ (by simp [sysMillis, norPort])⟩

/-! ## Exchanges of a trace -/

theorem exchanges_append (a b : List Event) : exchanges (a ++ b) = exchanges a ++ exchanges b := by
  induction a with
  | nil => rfl
  | cons e es ih => cases e <;> simp [exchanges, ih]

theorem exchanges_polls (w : List Event) (h : ∀ e ∈ w, e = statusEvent ∨ e = Event.delay 1) :
    ∃ k, exchanges w = List.replicate k statusSegs := by
  induction w with
  | nil => exact ⟨0, rfl⟩
  | cons e es ih =>
    obtain ⟨k, hk⟩ := ih (fun x hx => h x (List.mem_cons_of_mem _ hx))
    rcases h e (List.mem_cons_self _ _) with h1 | h1
    · exact ⟨k + 1, by rw [h1]; simp [statusEvent, exchanges, hk, List.replicate_succ]⟩
    · exact ⟨k, by rw [h1]; simp [exchanges, hk]⟩

theorem exchanges_wait (w : List Event) (h : IsWaitTrace w) :
    ∃ k, 1 ≤ k ∧ exchanges w = List.replicate k statusSegs := by
  match w, h with
  | e :: es, ⟨h1, h2⟩ =>
    obtain ⟨k, hk⟩ := exchanges_polls es (fun x hx => h2 x (List.mem_cons_of_mem _ hx))
    simp at h1
    exact ⟨k + 1, by omega, by rw [h1]; simp [statusEvent, exchanges, hk, List.replicate_succ]⟩

theorem exchanges_wren (f : SpiFlash) : exchanges (wrenEvents f) = [wrenSegs] := by
  unfold wrenEvents; split_ifs <;> rfl

theorem frameSeg_eq (f : SpiFlash) (inst addr : Nat) :
    frameSeg f inst addr =
      { tx := some (if f.addr4byte then
                [inst, (addr >>> 24) % 256, (addr >>> 16) % 256, (addr >>> 8) % 256, addr % 256]
              else [inst, (addr >>> 16) % 256, (addr >>> 8) % 256, addr % 256]),
        rx := false, len := if f.addr4byte then 5 else 4 } := by
  cases h4 : f.addr4byte <;>
    simp [frameSeg, setInstWithAddr, setInstWithAddrP, put, getInstWithAddrSize, h4, txBuf5]

theorem erasePattern_of {σ : Type} (P : Port σ) (f : SpiFlash) (hlive : Live P f)
    (cmd : List Seg) (t : Nat) (s : Sys σ) :
    ∃ N, ∀ fuel, N ≤ fuel → ErasePattern P f fuel s
      (match waitForWriteComplete P f fuel 0 s with
        | none => none
        | some s1 => waitForWriteComplete P f fuel t (transact P cmd (writeEnable P f s1)).2)
      cmd := by
  obtain ⟨N, hN⟩ := erase_pattern P f hlive cmd t s
  refine ⟨N, fun fuel hf => ?_⟩
  obtain ⟨s1, r, w1, w2, h1, h2, h3, h4, h5, h6⟩ := hN fuel hf
  obtain ⟨k1, hk1, e1⟩ := exchanges_wait w1 h3
  obtain ⟨k2, hk2, e2⟩ := exchanges_wait w2 h6
  refine ⟨s1, r, w1, w1 ++ wrenEvents f ++ [Event.transaction cmd] ++ w2, k1, k2,
    h1, h2, e1, h4, by simp [h5], hk1, hk2, ?_⟩
  simp only [exchanges_append, e1, e2, exchanges_wren]
  simp [exchanges]

/-- Claim C8. On a port whose completion waits end, every erase operation returns and
produces the same command pattern: a completion wait with the default timeout, the
write-enable exchange `[0x06]`, exactly one erase exchange, a completion wait. The erase
exchange is the address frame of `addr` as given (no rounding or validation) with opcode 0x20
for `sectorErase` and 0xD8 for `blockErase`, and the single byte `[0xC7]` for `chipErase`. -/
theorem erase_command_pattern {σ : Type} (P : Port σ) (f : SpiFlash) (hlive : Live P f)
    (addr : Nat) (s : Sys σ) :
    ∃ N, ∀ fuel, N ≤ fuel →
      ErasePattern P f fuel s (sectorErase P f fuel addr s) [frameSeg f 0x20 addr] ∧
      ErasePattern P f fuel s (blockErase P f fuel addr s) [frameSeg f 0xD8 addr] ∧
      ErasePattern P f fuel s (chipErase P f fuel s) [{ tx := some [0xC7], rx := false, len := 1 }] ∧
      (∀ op, frameSeg f op addr =
        { tx := some (if f.addr4byte then
                  [op, (addr >>> 24) % 256, (addr >>> 16) % 256, (addr >>> 8) % 256, addr % 256]
                else [op, (addr >>> 16) % 256, (addr >>> 8) % 256, addr % 256]),
          rx := false, len := if f.addr4byte then 5 else 4 }) := by
  obtain ⟨n1, h1⟩ := erasePattern_of P f hlive [frameSeg f 0x20 addr] f.sectorEraseTimeoutMs s
  obtain ⟨n2, h2⟩ := erasePattern_of P f hlive [frameSeg f 0xD8 addr] f.chipEraseTimeoutMs s
  obtain ⟨n3, h3⟩ := erasePattern_of P f hlive [{ tx := some [0xC7], rx := false, len := 1 }]
    f.chipEraseTimeoutMs s
  exact ⟨max n1 (max n2 n3), fun fuel hf =>
    ⟨h1 fuel (by omega), h2 fuel (by omega), h3 fuel (by omega), fun op => frameSeg_eq f op addr⟩⟩

theorem erase_command_pattern_witness :
    Live norPort SpiFlashDefault ∧
    frameSeg SpiFlashDefault 0x20 8192 = { tx := some [0x20, 0x00, 0x20, 0x00], rx := false, len := 4 } ∧
    4096 + 16 * 256 = 8192 ∧ 4096 + 32 * 256 = 8192 + SpiFlashDefault.sectorSize ∧
    ∃ N, ∀ fuel, N ≤ fuel →
      ErasePattern norPort SpiFlashDefault fuel (boot blankNor)
        (sectorErase norPort SpiFlashDefault fuel 8192 (boot blankNor))
        [frameSeg SpiFlashDefault 0x20 8192] :=
  ⟨norPort_live SpiFlashDefault, by decide, by decide, by decide,
    (erase_command_pattern norPort SpiFlashDefault (norPort_live SpiFlashDefault) 8192
      (boot blankNor)).imp (fun _ h fuel hf => (h fuel hf).1)⟩

/-! ## Timeouts of the erase operations -/

theorem stuck_isWriteInProgress (s : Sys Nat) :
    isWriteInProgress stuckPort s = (true, { dev := s.dev, trace := s.trace ++ [statusEvent] }) := by
  simp [isWriteInProgress, readStatus, transact, stuckPort, statusSegs, rxBytes, statusEvent,
    List.range_succ, STATUS_WIP]

theorem stuck_sysMillis (s : Sys Nat) :
    sysMillis stuckPort s = (s.dev % WORD, { dev := s.dev + 1, trace := s.trace }) := rfl

theorem stuck_waitLoop (t0 T : Nat) (hT : T < WORD) : ∀ (j : Nat) (s : Sys Nat),
    t0 < s.dev → s.dev + j = t0 + T → ∀ fuel, j + 1 ≤ fuel →
    ∃ r w, waitLoop stuckPort fuel (t0 % WORD) T s = some r ∧ r.trace = s.trace ++ w ∧
      exchanges w = List.replicate (j + 1) statusSegs := by
  intro j
  induction j with
  | zero =>
    intro s h1 h2 fuel hf
    obtain ⟨k, rfl⟩ : ∃ k, fuel = k + 1 := ⟨fuel - 1, by omega⟩
    have hnot : ¬ sub32 (s.dev % WORD) (t0 % WORD) < T := by
      unfold sub32 WORD at *; omega
    refine ⟨{ dev := s.dev + 1, trace := s.trace ++ [statusEvent] }, [statusEvent], ?_, rfl, rfl⟩
    rw [waitLoop]; simp only [stuck_isWriteInProgress, stuck_sysMillis, if_true]
    rw [if_neg hnot]
  | succ j ih =>
    intro s h1 h2 fuel hf
    obtain ⟨k, rfl⟩ : ∃ k, fuel = k + 1 := ⟨fuel - 1, by omega⟩
    have hlt : sub32 (s.dev % WORD) (t0 % WORD) < T := by
      unfold sub32 WORD at *; omega
    rw [waitLoop]; simp only [stuck_isWriteInProgress, stuck_sysMillis, if_true]
    rw [if_pos hlt]
    by_cases h5 : T > 500
    · obtain ⟨r, w, e1, e2, e3⟩ := ih
        (sysDelay stuckPort 1 { dev := s.dev + 1, trace := s.trace ++ [statusEvent] })
        (by simp [sysDelay, stuckPort]; omega) (by simp [sysDelay, stuckPort]; omega) k (by omega)
      refine ⟨r, statusEvent :: Event.delay 1 :: w, ?_, ?_, ?_⟩
      · rw [if_pos h5]; exact e1
      · rw [e2]; simp [sysDelay]
      · simp [exchanges, statusEvent, e3, List.replicate_succ]
    · obtain ⟨r, w, e1, e2, e3⟩ := ih
        { dev := s.dev + 1, trace := s.trace ++ [statusEvent] }
        (by simp; omega) (by simp; omega) k (by omega)
      refine ⟨r, statusEvent :: w, ?_, ?_, ?_⟩
      · rw [if_neg h5]; exact e1
      · rw [e2]; simp
      · simp [exchanges, statusEvent, e3, List.replicate_succ]

theorem stuck_wait (f : SpiFlash) (t : Nat) (ht : 0 < t) (hT : t < WORD) (s : Sys Nat) :
    ∀ fuel, t ≤ fuel → ∃ r w, waitForWriteComplete stuckPort f fuel t s = some r ∧
      r.trace = s.trace ++ w ∧ exchanges w = List.replicate t statusSegs := by
  intro fuel hf
  obtain ⟨j, rfl⟩ : ∃ j, t = j + 1 := ⟨t - 1, by omega⟩
  have := stuck_waitLoop s.dev (j + 1) hT j { dev := s.dev + 1, trace := s.trace }
    (by simp) (by simp; omega) fuel hf
  simpa [waitForWriteComplete, sysMillis, stuckPort] using this

theorem finalPolls_after (ev : List Event) (cmd : List Seg) (hc : cmd ≠ statusSegs)
    (w : List Event) (k : Nat) (hw : exchanges w = List.replicate k statusSegs) :
    finalPolls (ev ++ [Event.transaction cmd] ++ w) = k := by
  unfold finalPolls
  simp only [exchanges_append, hw, List.reverse_append, List.reverse_replicate, exchanges,
    List.reverse_cons, List.reverse_nil, List.nil_append, List.singleton_append]
  rw [List.takeWhile_append_of_pos (by simp)]
  simp [List.takeWhile, hc]

theorem frameSeg_ne_status (f : SpiFlash) (inst addr : Nat) (h : inst ≠ 0x05) :
    [frameSeg f inst addr] ≠ statusSegs := by
  rw [frameSeg_eq]
  cases f.addr4byte <;> simp [statusSegs, h]

theorem sectorErase_bind {σ : Type} (P : Port σ) (f : SpiFlash) (fuel addr : Nat) (s : Sys σ) :
    sectorErase P f fuel addr s = (waitForWriteComplete P f fuel 0 s).bind (fun s1 =>
      waitForWriteComplete P f fuel f.sectorEraseTimeoutMs
        (transact P [frameSeg f 0x20 addr] (writeEnable P f s1)).2) := by
  unfold sectorErase; cases waitForWriteComplete P f fuel 0 s <;> rfl

theorem blockErase_bind {σ : Type} (P : Port σ) (f : SpiFlash) (fuel addr : Nat) (s : Sys σ) :
    blockErase P f fuel addr s = (waitForWriteComplete P f fuel 0 s).bind (fun s1 =>
      waitForWriteComplete P f fuel f.chipEraseTimeoutMs
        (transact P [frameSeg f 0xD8 addr] (writeEnable P f s1)).2) := by
  unfold blockErase; cases waitForWriteComplete P f fuel 0 s <;> rfl

theorem chipErase_bind {σ : Type} (P : Port σ) (f : SpiFlash) (fuel : Nat) (s : Sys σ) :
    chipErase P f fuel s = (waitForWriteComplete P f fuel 0 s).bind (fun s1 =>
      waitForWriteComplete P f fuel f.chipEraseTimeoutMs
        (transact P [{ tx := some [0xC7], rx := false, len := 1 }] (writeEnable P f s1)).2) := by
  unfold chipErase; cases waitForWriteComplete P f fuel 0 s <;> rfl

/-- On the chip that never finishes, an erase operation gives up after exactly the
milliseconds of the timeout of its last wait. -/
theorem stuck_erase (f : SpiFlash) (cmd : List Seg) (hc : cmd ≠ statusSegs) (t : Nat)
    (hd : 0 < f.waitWriteCompletionTimeoutMs ∧ f.waitWriteCompletionTimeoutMs < WORD)
    (ht : 0 < t ∧ t < WORD) (s : Sys Nat) :
    ∀ fuel, f.waitWriteCompletionTimeoutMs + t ≤ fuel →
    ∃ r, (waitForWriteComplete stuckPort f fuel 0 s).bind (fun s1 =>
            waitForWriteComplete stuckPort f fuel t
              (transact stuckPort cmd (writeEnable stuckPort f s1)).2) = some r ∧
      finalPolls r.trace = t := by
  intro fuel hf
  obtain ⟨s1, w1, e1, -, -⟩ := stuck_wait f _ hd.1 hd.2 s fuel (by omega)
  rw [← waitForWriteComplete_default] at e1
  obtain ⟨r, w, e2, e3, e4⟩ := stuck_wait f t ht.1 ht.2
    (transact stuckPort cmd (writeEnable stuckPort f s1)).2 fuel (by omega)
  refine ⟨r, by rw [e1]; exact e2, ?_⟩
  rw [e3]
  exact finalPolls_after _ cmd hc w t e4

theorem profiles_timeouts (f : SpiFlash) (hf : f ∈ profiles) :
    (0 < f.waitWriteCompletionTimeoutMs ∧ f.waitWriteCompletionTimeoutMs < WORD) ∧
    (0 < f.sectorEraseTimeoutMs ∧ f.sectorEraseTimeoutMs < WORD) ∧
    (0 < f.chipEraseTimeoutMs ∧ f.chipEraseTimeoutMs < WORD) ∧
    f.sectorEraseTimeoutMs < f.chipEraseTimeoutMs := by
  simp only [profiles, List.mem_cons, List.mem_singleton, List.not_mem_nil, or_false] at hf
  rcases hf with h | h | h | h <;> subst h <;> decide

/-- Claim C9, as amended. For every device profile (default, ISSI, Winbond, Macronix), on a
chip that never clears write-in-progress and a clock that advances one millisecond per
reading, all three erase operations return; the last wait of `sectorErase` lasts
`sectorEraseTimeoutMs`, the last wait of `blockErase` and the last wait of `chipErase` both
last `chipEraseTimeoutMs`; the sector timeout is strictly less than that common timeout. -/
theorem erase_timeouts (f : SpiFlash) (hf : f ∈ profiles) (addr : Nat) (s : Sys Nat) :
    ∃ N, ∀ fuel, N ≤ fuel → ∃ rs rb rc,
      sectorErase stuckPort f fuel addr s = some rs ∧
      blockErase stuckPort f fuel addr s = some rb ∧
      chipErase stuckPort f fuel s = some rc ∧
      finalPolls rs.trace = f.sectorEraseTimeoutMs ∧
      finalPolls rb.trace = f.chipEraseTimeoutMs ∧
      finalPolls rc.trace = f.chipEraseTimeoutMs ∧
      f.sectorEraseTimeoutMs < f.chipEraseTimeoutMs := by
  obtain ⟨hd, hs, hc, hlt⟩ := profiles_timeouts f hf
  refine ⟨f.waitWriteCompletionTimeoutMs + f.chipEraseTimeoutMs, fun fuel hfuel => ?_⟩
  obtain ⟨rs, e1, p1⟩ := stuck_erase f [frameSeg f 0x20 addr]
    (frameSeg_ne_status f _ addr (by decide)) _ hd hs s fuel (by omega)
  obtain ⟨rb, e2, p2⟩ := stuck_erase f [frameSeg f 0xD8 addr]
    (frameSeg_ne_status f _ addr (by decide)) _ hd hc s fuel (by omega)
  obtain ⟨rc, e3, p3⟩ := stuck_erase f [{ tx := some [0xC7], rx := false, len := 1 }]
    (by decide) _ hd hc s fuel (by omega)
  exact ⟨rs, rb, rc, by rw [sectorErase_bind]; exact e1, by rw [blockErase_bind]; exact e2,
    by rw [chipErase_bind]; exact e3, p1, p2, p3, hlt⟩

theorem erase_timeouts_witness :
    SpiFlashMacronix ∈ profiles ∧
    ∃ N, ∀ fuel, N ≤ fuel → ∃ rs rb rc,
      sectorErase stuckPort SpiFlashMacronix fuel 8192 (boot 0) = some rs ∧
      blockErase stuckPort SpiFlashMacronix fuel 8192 (boot 0) = some rb ∧
      chipErase stuckPort SpiFlashMacronix fuel (boot 0) = some rc ∧
      finalPolls rs.trace = 200 ∧ finalPolls rb.trace = 220000 ∧ finalPolls rc.trace = 220000 ∧
      SpiFlashMacronix.sectorEraseTimeoutMs < SpiFlashMacronix.chipEraseTimeoutMs :=
  ⟨by decide, erase_timeouts SpiFlashMacronix (by decide) 8192 (boot 0)⟩

/-- Claim C9 as stated fails: with the default profile the last wait of `blockErase` is not
shorter than the last wait of `chipErase` (both are given `chipEraseTimeoutMs = 50000`). -/
theorem erase_timeouts_counterexample :
    ¬ ∃ N, ∀ fuel, N ≤ fuel → ∃ rb rc,
      blockErase stuckPort SpiFlashDefault fuel 0 (boot 0) = some rb ∧
      chipErase stuckPort SpiFlashDefault fuel (boot 0) = some rc ∧
      finalPolls rb.trace < finalPolls rc.trace := by
  rintro ⟨N, hN⟩
  obtain ⟨rb, e2, p2⟩ := stuck_erase SpiFlashDefault [frameSeg SpiFlashDefault 0xD8 0]
    (by decide) SpiFlashDefault.chipEraseTimeoutMs (by decide) (by decide) (boot 0)
    (max N 50010) (by simp [SpiFlashDefault])
  obtain ⟨rc, e3, p3⟩ := stuck_erase SpiFlashDefault [{ tx := some [0xC7], rx := false, len := 1 }]
    (by decide) SpiFlashDefault.chipEraseTimeoutMs (by decide) (by decide) (boot 0)
    (max N 50010) (by simp [SpiFlashDefault])
  obtain ⟨rb2, rc2, h1, h2, h3⟩ := hN (max N 50010) (by omega)
  rw [blockErase_bind] at h1
  rw [chipErase_bind] at h2
  have hb : rb2 = rb := Option.some.inj (h1.symm.trans e2)
  have hc : rc2 = rc := Option.some.inj (h2.symm.trans e3)
  rw [hb, hc, p2, p3] at h3
  exact Nat.lt_irrefl _ h3

/-! ## Chunking engine: the write loop -/

theorem chunkCount_eq (ps addr len : Nat) (hps : 0 < ps) (hps32 : ps < WORD) (ha : addr < WORD) :
    chunkCount ps addr len = min len (ps - addr % ps) := by
  have h1 : addr % ps < ps := Nat.mod_lt _ hps
  have h2 : addr % ps ≤ addr := Nat.mod_le _ _
  unfold chunkCount sub32 add32
  simp only
  generalize addr % ps = o at *
  unfold WORD at *
  have e : ((addr % 2 ^ 32 + 2 ^ 32 - o % 2 ^ 32) % 2 ^ 32 + ps) % 2 ^ 32 % 2 ^ 32 + 2 ^ 32
      - addr % 2 ^ 32 = (if addr - o + ps < 2 ^ 32 then ps - o + 2 ^ 32 else ps - o) := by
    split_ifs <;> omega
  rw [e]
  split_ifs <;> omega

theorem chunkCount_pos (ps addr len : Nat) (hps : 0 < ps) (hps32 : ps < WORD) (ha : addr < WORD)
    (hl : 0 < len) : 0 < chunkCount ps addr len ∧ chunkCount ps addr len ≤ len := by
  rw [chunkCount_eq ps addr len hps hps32 ha]
  have h1 : addr % ps < ps := Nat.mod_lt _ hps
  omega

theorem add32_lt (a b : Nat) : add32 a b < WORD := Nat.mod_lt _ (by decide)

theorem writeEnable_trace {σ : Type} (P : Port σ) (f : SpiFlash) (s : Sys σ) :
    (writeEnable P f s).trace = s.trace ++ wrenEvents f := by
  unfold writeEnable wrenEvents
  split_ifs <;> simp [transact, sysDelayMicroseconds]

theorem writeLoop_shape {σ : Type} (P : Port σ) (f : SpiFlash) (hps : 0 < f.pageSize)
    (hps32 : f.pageSize < WORD) : ∀ (n addr : Nat) (cur : List Nat) (len : Nat) (s : Sys σ)
    (fuel : Nat) (r : Sys σ), addr < WORD →
    writeLoop P f fuel n addr cur len s = some r →
    ∃ ev, r.trace = s.trace ++ ev ∧ WriteShape f (specChunks f.pageSize n addr cur len) ev := by
  intro n
  induction n with
  | zero =>
    intro addr cur len s fuel r _ h
    simp only [writeLoop] at h
    split_ifs at h
    cases h
    exact ⟨[], by simp, by simpa [specChunks] using WriteShape.nil⟩
  | succ n ih =>
    intro addr cur len s fuel r ha h
    rw [writeLoop] at h
    by_cases hl : len > 0
    · rw [if_pos hl, if_neg (by omega)] at h
      simp only at h
      rw [chunkCount_eq _ _ _ hps hps32 ha] at h
      cases hw : waitForWriteComplete P f fuel f.pageProgramTimeoutMs
          (transact P [frameSeg f 2 addr,
            { tx := some (List.take (min len (f.pageSize - addr % f.pageSize)) cur), rx := false,
              len := min len (f.pageSize - addr % f.pageSize) }] (writeEnable P f s)).2 with
      | none => rw [hw] at h; simp at h
      | some s3 =>
        rw [hw] at h
        simp only at h
        obtain ⟨w, hw1, hw2⟩ := waitForWriteComplete_trace P f fuel _ _ s3 hw
        obtain ⟨ev, e1, e2⟩ := ih _ _ _ _ _ _ (add32_lt _ _) h
        refine ⟨wrenEvents f ++ [Event.transaction (programSegs f
          { addr := addr, count := min len (f.pageSize - addr % f.pageSize),
            data := cur.take (min len (f.pageSize - addr % f.pageSize)) })] ++ w ++ ev, ?_, ?_⟩
        · rw [e1, hw2]; simp [transact, writeEnable_trace, programSegs]
        · rw [specChunks, if_neg (by omega)]
          exact WriteShape.cons _ _ _ _ hw1 e2
    · rw [if_neg hl] at h
      cases h
      exact ⟨[], by simp, by
        rw [specChunks, if_pos (by omega)]; exact WriteShape.nil⟩

theorem writeLoop_total {σ : Type} (P : Port σ) (f : SpiFlash) (hlive : Live P f)
    (hps : 0 < f.pageSize) (hps32 : f.pageSize < WORD) :
    ∀ (n addr : Nat) (cur : List Nat) (len : Nat) (s : Sys σ), addr < WORD → len ≤ n →
    ∃ N r, ∀ fuel, N ≤ fuel → writeLoop P f fuel n addr cur len s = some r := by
  intro n
  induction n with
  | zero =>
    intro addr cur len s _ hl
    exact ⟨0, s, fun fuel _ => by simp [writeLoop]; omega⟩
  | succ n ih =>
    intro addr cur len s ha hl
    by_cases hl0 : len > 0
    · obtain ⟨hc1, hc2⟩ := chunkCount_pos f.pageSize addr len hps hps32 ha hl0
      obtain ⟨n1, s3, h1⟩ := live_fuel P f hlive f.pageProgramTimeoutMs
        (transact P [frameSeg f 2 addr,
            { tx := some (List.take (chunkCount f.pageSize addr len) cur), rx := false,
              len := chunkCount f.pageSize addr len }] (writeEnable P f s)).2
      obtain ⟨n2, r, h2⟩ := ih (add32 addr (chunkCount f.pageSize addr len))
        (cur.drop (chunkCount f.pageSize addr len)) (len - chunkCount f.pageSize addr len) s3
        (add32_lt _ _) (by omega)
      refine ⟨max n1 n2, r, fun fuel hf => ?_⟩
      rw [writeLoop, if_pos hl0, if_neg (by omega)]
      simp only
      rw [h1 fuel (by omega)]
      exact h2 fuel (by omega)
    · exact ⟨0, s, fun fuel _ => by rw [writeLoop, if_neg hl0]⟩

theorem writeData_total {σ : Type} (P : Port σ) (f : SpiFlash) (hlive : Live P f)
    (hps : 0 < f.pageSize) (hps32 : f.pageSize < WORD) (addr : Nat) (buf : List Nat)
    (bufLen : Nat) (s : Sys σ) (ha : addr < WORD) :
    ∃ N r, ∀ fuel, N ≤ fuel → writeData P f fuel addr buf bufLen s = some r := by
  obtain ⟨n1, s1, h1⟩ := live_fuel P f hlive 0 s
  obtain ⟨n2, r, h2⟩ := writeLoop_total P f hlive hps hps32 bufLen addr buf bufLen s1 ha
    (Nat.le_refl _)
  refine ⟨max n1 n2, r, fun fuel hf => ?_⟩
  unfold writeData
  rw [h1 fuel (by omega)]
  exact h2 fuel (by omega)

theorem writeData_shape {σ : Type} (P : Port σ) (f : SpiFlash) (hps : 0 < f.pageSize)
    (hps32 : f.pageSize < WORD) (addr : Nat) (buf : List Nat) (bufLen : Nat) (s r : Sys σ)
    (fuel : Nat) (ha : addr < WORD) (h : writeData P f fuel addr buf bufLen s = some r) :
    ∃ w ev, IsWaitTrace w ∧ r.trace = s.trace ++ w ++ ev ∧
      WriteShape f (specChunks f.pageSize bufLen addr buf bufLen) ev := by
  unfold writeData at h
  cases hw : waitForWriteComplete P f fuel 0 s with
  | none => rw [hw] at h; simp at h
  | some s1 =>
    rw [hw] at h
    simp only at h
    obtain ⟨w, hw1, hw2⟩ := waitForWriteComplete_trace P f fuel _ _ s1 hw
    obtain ⟨ev, e1, e2⟩ := writeLoop_shape P f hps hps32 _ _ _ _ _ _ _ ha h
    exact ⟨w, ev, hw1, by rw [e1, hw2], e2⟩

/-! ## The chunk list -/

theorem sent_zero (cs : List Chunk) : sent cs 0 = 0 := by simp [sent]

theorem sent_cons_succ (c : Chunk) (cs : List Chunk) (k : Nat) :
    sent (c :: cs) (k + 1) = c.count + sent cs k := by simp [sent]

theorem sent_succ (cs : List Chunk) (k : Nat) (c : Chunk) (h : cs[k]? = some c) :
    sent cs (k + 1) = sent cs k + c.count := by
  induction cs generalizing k with
  | nil => simp at h
  | cons d ds ih =>
    cases k with
    | zero => simp at h; simp [sent, h]
    | succ k =>
      simp at h
      rw [sent_cons_succ, sent_cons_succ, ih k h]; omega

theorem specChunks_succ (ps n addr : Nat) (cur : List Nat) (len : Nat) (hl : 0 < len) :
    specChunks ps (n + 1) addr cur len =
      { addr := addr, count := min len (ps - addr % ps),
        data := cur.take (min len (ps - addr % ps)) } ::
      specChunks ps n (add32 addr (min len (ps - addr % ps)))
        (cur.drop (min len (ps - addr % ps))) (len - min len (ps - addr % ps)) := by
  rw [specChunks, if_neg (by omega)]

theorem specChunks_zero_len (ps n addr : Nat) (cur : List Nat) :
    specChunks ps n addr cur 0 = [] := by
  cases n <;> simp [specChunks]

/-- The `k`-th chunk: what is left to send is not zero, the chunk starts where the previous
ones ended, its length is `min(remaining, pageSize - offset)`, its payload is the matching
slice of the buffer. -/
theorem specChunks_index (ps : Nat) (hps : 0 < ps) : ∀ (n addr : Nat) (cur : List Nat)
    (len k : Nat) (c : Chunk), addr < WORD →
    (specChunks ps n addr cur len)[k]? = some c →
    sent (specChunks ps n addr cur len) k < len ∧
    c.addr = (addr + sent (specChunks ps n addr cur len) k) % WORD ∧
    c.count = min (len - sent (specChunks ps n addr cur len) k) (ps - c.addr % ps) ∧
    c.data = (cur.drop (sent (specChunks ps n addr cur len) k)).take c.count := by
  intro n
  induction n with
  | zero => intro addr cur len k c _ h; simp [specChunks] at h
  | succ n ih =>
    intro addr cur len k c ha h
    by_cases hl : 0 < len
    · rw [specChunks_succ ps n addr cur len hl] at h ⊢
      cases k with
      | zero =>
        simp at h
        subst h
        simp [sent_zero, Nat.mod_eq_of_lt ha, hl]
      | succ k =>
        simp only [List.getElem?_cons_succ] at h
        obtain ⟨h1, h2, h3, h4⟩ := ih _ _ _ _ _ (add32_lt _ _) h
        have hm : addr % ps < ps := Nat.mod_lt _ hps
        rw [sent_cons_succ]
        simp only
        refine ⟨by omega, ?_, ?_, ?_⟩
        · rw [h2]; unfold add32; simp [Nat.add_assoc]
        · rw [h3]; congr 1; omega
        · rw [h4, List.drop_drop]
    · have : len = 0 := by omega
      subst this
      simp [specChunks] at h

theorem specChunks_page_bound (ps : Nat) (hps : 0 < ps) (n addr : Nat) (cur : List Nat)
    (len k : Nat) (c : Chunk) (ha : addr < WORD)
    (h : (specChunks ps n addr cur len)[k]? = some c) :
    1 ≤ c.count ∧ c.addr % ps + c.count ≤ ps := by
  obtain ⟨h1, -, h3, -⟩ := specChunks_index ps hps n addr cur len k c ha h
  have hm : c.addr % ps < ps := Nat.mod_lt _ hps
  omega

theorem specChunks_sent_all (ps : Nat) (hps : 0 < ps) : ∀ (n addr : Nat) (cur : List Nat)
    (len : Nat), len ≤ n →
    sent (specChunks ps n addr cur len) (specChunks ps n addr cur len).length = len ∧
    ((specChunks ps n addr cur len).map Chunk.data).flatten = cur.take len := by
  intro n
  induction n with
  | zero => intro addr cur len h; simp [specChunks, sent]; omega
  | succ n ih =>
    intro addr cur len h
    by_cases hl : 0 < len
    · rw [specChunks_succ ps n addr cur len hl]
      have hm : addr % ps < ps := Nat.mod_lt _ hps
      obtain ⟨h1, h2⟩ := ih (add32 addr (min len (ps - addr % ps)))
        (cur.drop (min len (ps - addr % ps))) (len - min len (ps - addr % ps)) (by omega)
      constructor
      · rw [List.length_cons, sent_cons_succ, h1]; simp only; omega
      · rw [List.map_cons, List.flatten_cons, h2]
        simp only
        rw [← List.take_add]
        congr 1; omega
    · have : len = 0 := by omega
      subst this
      simp [specChunks_zero_len, sent]


theorem add_sub_mod_self (a ps : Nat) (hps : 0 < ps) : (a + (ps - a % ps)) % ps = 0 := by
  have h1 := Nat.div_add_mod a ps
  have h2 : a % ps < ps := Nat.mod_lt _ hps
  have h3 : a + (ps - a % ps) = ps * (a / ps + 1) := by
    rw [Nat.mul_add, Nat.mul_one]; omega
  rw [h3, Nat.mul_mod_right]

/-- Without wrap-around of the address: a chunk that starts on a page boundary with at least
a page left is a whole page, and every chunk but the first and the last is a whole page. -/
theorem specChunks_interior (ps : Nat) (hps : 0 < ps) (n addr : Nat) (cur : List Nat)
    (len : Nat) (ha : addr < WORD) (hnw : addr + len ≤ WORD) (k : Nat) (c : Chunk)
    (h : (specChunks ps n addr cur len)[k]? = some c) :
    c.addr = addr + sent (specChunks ps n addr cur len) k ∧
    (c.addr % ps = 0 → ps ≤ len - sent (specChunks ps n addr cur len) k → c.count = ps) ∧
    (0 < k → k + 1 < (specChunks ps n addr cur len).length → c.count = ps) := by
  obtain ⟨h1, h2, h3, -⟩ := specChunks_index ps hps n addr cur len k c ha h
  have hc : c.addr = addr + sent (specChunks ps n addr cur len) k := by
    rw [h2, Nat.mod_eq_of_lt (by omega)]
  refine ⟨hc, fun h0 hr => by rw [h3, h0]; omega, fun hk hlast => ?_⟩
  obtain ⟨j, rfl⟩ : ∃ j, k = j + 1 := ⟨k - 1, by omega⟩
  obtain ⟨d, hd⟩ : ∃ d, (specChunks ps n addr cur len)[j]? = some d :=
    ⟨_, List.getElem?_eq_getElem (by omega)⟩
  obtain ⟨e, he⟩ : ∃ e, (specChunks ps n addr cur len)[j + 1 + 1]? = some e :=
    ⟨_, List.getElem?_eq_getElem (by omega)⟩
  obtain ⟨d1, d2, d3, -⟩ := specChunks_index ps hps n addr cur len j d ha hd
  obtain ⟨e1, -, -, -⟩ := specChunks_index ps hps n addr cur len (j + 1 + 1) e ha he
  have s1 := sent_succ _ j d hd
  have s2 := sent_succ _ (j + 1) c h
  have hdm : d.addr % ps < ps := Nat.mod_lt _ hps
  have hda : d.addr = addr + sent (specChunks ps n addr cur len) j := by
    rw [d2, Nat.mod_eq_of_lt (by omega)]
  have hdc : d.count = ps - d.addr % ps := by omega
  have hal : c.addr % ps = 0 := by
    have : c.addr = d.addr + (ps - d.addr % ps) := by omega
    rw [this]; exact add_sub_mod_self _ _ hps
  omega

/-! ## The exchanges of one opcode -/

theorem exchangesOf_append (op : Nat) (a b : List Event) :
    exchangesOf op (a ++ b) = exchangesOf op a ++ exchangesOf op b := by
  simp [exchangesOf, exchanges_append]

theorem exchangesOf_wait (op : Nat) (hop : op ≠ 0x05) (w : List Event) (h : IsWaitTrace w) :
    exchangesOf op w = [] := by
  obtain ⟨k, -, hk⟩ := exchanges_wait w h
  simp only [exchangesOf, hk, List.filter_eq_nil_iff, List.mem_replicate]
  rintro g ⟨-, rfl⟩
  simp [statusSegs, Event.opcode]; omega

theorem exchangesOf_wren (op : Nat) (hop : op ≠ 0x06) (f : SpiFlash) :
    exchangesOf op (wrenEvents f) = [] := by
  simp only [exchangesOf, exchanges_wren, List.filter_eq_nil_iff, List.mem_singleton]
  rintro g rfl
  simp [wrenSegs, Event.opcode]; omega

theorem programSegs_opcode (f : SpiFlash) (c : Chunk) :
    (Event.transaction (programSegs f c)).opcode = some 0x02 := by
  unfold programSegs
  rw [frameSeg_eq]
  cases f.addr4byte <;> rfl

theorem exchangesOf_writeShape (f : SpiFlash) (cs : List Chunk) (ev : List Event)
    (h : WriteShape f cs ev) : exchangesOf 0x02 ev = cs.map (programSegs f) := by
  induction h with
  | nil => rfl
  | cons c cs w ev hw _ ih =>
    simp only [exchangesOf_append, exchangesOf_wren 2 (by decide), exchangesOf_wait 2 (by decide) w hw,
      ih, List.nil_append, List.append_nil, List.map_cons]
    simp [exchangesOf, exchanges, programSegs_opcode]

/-! ## Page-program exchanges of `writeData` -/

/-- Claim C2. On a port whose completion waits end, for every page size from 1 on, every
address and every length, `writeData` returns, and its PAGE_PROGRAM (0x02) exchanges are, in
order, the chunks `cs`: the `k`-th starts at an address `a_k` and carries exactly
`c_k = min(remaining, pageSize - a_k mod pageSize)` data bytes, where `remaining` is the
length minus what the earlier chunks carried; so `a_k mod pageSize + c_k ≤ pageSize`: no
exchange writes past the end of the page it started in. -/
theorem writeData_page_bound {σ : Type} (P : Port σ) (f : SpiFlash) (hlive : Live P f)
    (hps : 1 ≤ f.pageSize) (hps32 : f.pageSize < WORD) (addr : Nat) (buf : List Nat)
    (bufLen : Nat) (ha : addr < WORD) (s : Sys σ) :
    ∃ N, ∀ fuel, N ≤ fuel → ∃ (r : Sys σ) (ev : List Event) (cs : List Chunk),
      writeData P f fuel addr buf bufLen s = some r ∧ r.trace = s.trace ++ ev ∧
      cs = specChunks f.pageSize bufLen addr buf bufLen ∧
      exchangesOf 0x02 ev = cs.map (fun c =>
        [frameSeg f 0x02 c.addr, { tx := some c.data, rx := false, len := c.count }]) ∧
      sent cs cs.length = bufLen ∧
      ∀ k c, cs[k]? = some c →
        sent cs k < bufLen ∧ c.addr = (addr + sent cs k) % WORD ∧
        c.count = min (bufLen - sent cs k) (f.pageSize - c.addr % f.pageSize) ∧
        1 ≤ c.count ∧ c.addr % f.pageSize + c.count ≤ f.pageSize := by
  obtain ⟨N, r, hN⟩ := writeData_total P f hlive hps hps32 addr buf bufLen s ha
  refine ⟨N, fun fuel hf => ?_⟩
  obtain ⟨w, ev, hw, e1, e2⟩ := writeData_shape P f hps hps32 addr buf bufLen s r fuel ha
    (hN fuel hf)
  refine ⟨r, w ++ ev, specChunks f.pageSize bufLen addr buf bufLen, hN fuel hf,
    by rw [e1, List.append_assoc], rfl, ?_,
    (specChunks_sent_all _ hps _ _ _ _ (Nat.le_refl _)).1, ?_⟩
  · rw [exchangesOf_append, exchangesOf_wait 2 (by decide) w hw, exchangesOf_writeShape f _ _ e2]
    rfl
  · intro k c hk
    obtain ⟨h1, h2, h3, -⟩ := specChunks_index _ hps _ _ _ _ k c ha hk
    have := specChunks_page_bound _ hps _ _ _ _ k c ha hk
    exact ⟨h1, h2, h3, this.1, this.2⟩

theorem writeData_page_bound_witness :
    Live norPort SpiFlashDefault ∧ 1 ≤ SpiFlashDefault.pageSize ∧ SpiFlashDefault.pageSize < WORD ∧
    640 < WORD ∧
    ∃ N, ∀ fuel, N ≤ fuel → ∃ (r : Sys Nor) (ev : List Event) (cs : List Chunk),
      writeData norPort SpiFlashDefault fuel 640 (List.range 256) 256 (boot blankNor) = some r ∧
      r.trace = (boot blankNor).trace ++ ev ∧
      cs = specChunks SpiFlashDefault.pageSize 256 640 (List.range 256) 256 ∧
      exchangesOf 0x02 ev = cs.map (fun c =>
        [frameSeg SpiFlashDefault 0x02 c.addr, { tx := some c.data, rx := false, len := c.count }]) ∧
      sent cs cs.length = 256 ∧
      ∀ k c, cs[k]? = some c →
        sent cs k < 256 ∧ c.addr = (640 + sent cs k) % WORD ∧
        c.count = min (256 - sent cs k)
          (SpiFlashDefault.pageSize - c.addr % SpiFlashDefault.pageSize) ∧
        1 ≤ c.count ∧ c.addr % SpiFlashDefault.pageSize + c.count ≤ SpiFlashDefault.pageSize :=
  ⟨norPort_live _, by decide, by decide, by decide,
    writeData_page_bound norPort SpiFlashDefault (norPort_live _) (by decide) (by decide) 640
      (List.range 256) 256 (by decide) (boot blankNor)⟩


/-- Claim C3. On a port whose completion waits end, for every page size from 1 on and every
buffer `buf` written at `addr` without wrap-around of the address, `writeData` returns and its
PAGE_PROGRAM exchanges are contiguous and in order: the first starts at `addr`, each next
one starts at the previous start plus the previous count, each carries the slice of `buf`
that belongs at its address, and the payloads concatenated are `buf`. A chunk that starts
page-aligned with at least a page left is exactly `pageSize`; every chunk but the first and
the last is exactly `pageSize`. -/
theorem writeData_chunks_contiguous {σ : Type} (P : Port σ) (f : SpiFlash) (hlive : Live P f)
    (hps : 1 ≤ f.pageSize) (hps32 : f.pageSize < WORD) (addr : Nat) (buf : List Nat)
    (ha : addr < WORD) (hnw : addr + buf.length ≤ WORD) (s : Sys σ) :
    ∃ N, ∀ fuel, N ≤ fuel → ∃ (r : Sys σ) (ev : List Event) (cs : List Chunk),
      writeData P f fuel addr buf buf.length s = some r ∧ r.trace = s.trace ++ ev ∧
      cs = specChunks f.pageSize buf.length addr buf buf.length ∧
      exchangesOf 0x02 ev = cs.map (fun c =>
        [frameSeg f 0x02 c.addr, { tx := some c.data, rx := false, len := c.count }]) ∧
      (∀ c : Chunk, cs[0]? = some c → c.addr = addr) ∧
      (∀ (k : Nat) (c d : Chunk), cs[k]? = some c → cs[k + 1]? = some d →
        d.addr = c.addr + c.count) ∧
      (∀ (k : Nat) (c : Chunk), cs[k]? = some c →
        c.data = (buf.drop (c.addr - addr)).take c.count ∧ c.data.length = c.count ∧
        addr ≤ c.addr ∧ c.addr + c.count ≤ addr + buf.length) ∧
      (cs.map Chunk.data).flatten = buf ∧
      (∀ (k : Nat) (c : Chunk), cs[k]? = some c → c.addr % f.pageSize = 0 →
        f.pageSize ≤ addr + buf.length - c.addr → c.count = f.pageSize) ∧
      (∀ (k : Nat) (c : Chunk), cs[k]? = some c → 0 < k → k + 1 < cs.length → c.count = f.pageSize) := by
  obtain ⟨N, r, hN⟩ := writeData_total P f hlive hps hps32 addr buf buf.length s ha
  refine ⟨N, fun fuel hf => ?_⟩
  obtain ⟨w, ev, hw, e1, e2⟩ := writeData_shape P f hps hps32 addr buf buf.length s r fuel ha
    (hN fuel hf)
  have hidx := fun (k : Nat) (c : Chunk) =>
    specChunks_index f.pageSize hps buf.length addr buf buf.length k c ha
  have hint := fun (k : Nat) (c : Chunk) =>
    specChunks_interior f.pageSize hps buf.length addr buf buf.length ha hnw k c
  refine ⟨r, w ++ ev, specChunks f.pageSize buf.length addr buf buf.length, hN fuel hf,
    by rw [e1, List.append_assoc], rfl, ?_, ?_, ?_, ?_, ?_, ?_, ?_⟩
  · rw [exchangesOf_append, exchangesOf_wait 2 (by decide) w hw, exchangesOf_writeShape f _ _ e2]
    rfl
  · intro c hc
    rw [(hint 0 c hc).1, sent_zero]; rfl
  · intro k c d hc hd
    rw [(hint _ d hd).1, (hint _ c hc).1, sent_succ _ k c hc]; omega
  · intro k c hc
    obtain ⟨h1, -, h3, h4⟩ := hidx k c hc
    have h5 := (hint k c hc).1
    have h6 : c.addr - addr = sent (specChunks f.pageSize buf.length addr buf buf.length) k := by
      omega
    refine ⟨by rw [h6]; exact h4, ?_, by omega, by omega⟩
    rw [h4, List.length_take, List.length_drop]; omega
  · have := (specChunks_sent_all f.pageSize hps buf.length addr buf buf.length (Nat.le_refl _)).2
    rw [this, List.take_length]
  · intro k c hc h0 hr
    exact (hint k c hc).2.1 h0 (by have := (hint k c hc).1; omega)
  · intro k c hc hk hl
    exact (hint k c hc).2.2 hk hl

set_option maxRecDepth 100000 in
theorem writeData_chunks_contiguous_witness :
    Live norPort SpiFlashDefault ∧ 1 ≤ SpiFlashDefault.pageSize ∧
    640 + (List.range 256).length ≤ WORD ∧
    ∃ N, ∀ fuel, N ≤ fuel → ∃ (r : Sys Nor) (ev : List Event),
      writeData norPort SpiFlashDefault fuel 640 (List.range 256) (List.range 256).length
        (boot blankNor) = some r ∧
      r.trace = (boot blankNor).trace ++ ev ∧
      exchangesOf 0x02 ev =
        [[{ tx := some [0x02, 0x00, 0x02, 0x80], rx := false, len := 4 },
          { tx := some ((List.range 256).take 128), rx := false, len := 128 }],
         [{ tx := some [0x02, 0x00, 0x03, 0x00], rx := false, len := 4 },
          { tx := some ((List.range 256).drop 128), rx := false, len := 128 }]] := by
  refine ⟨norPort_live _, by decide, by simp [WORD], ?_⟩
  obtain ⟨N, hN⟩ := writeData_chunks_contiguous norPort SpiFlashDefault (norPort_live _)
    (by decide) (by decide) 640 (List.range 256) (by decide) (by simp [WORD]) (boot blankNor)
  refine ⟨N, fun fuel hf => ?_⟩
  obtain ⟨r, ev, cs, h1, h2, hcs, h3, -⟩ := hN fuel hf
  refine ⟨r, ev, h1, h2, ?_⟩
  rw [h3, hcs]
  decide


/-! ## The completion-wait protocol -/

theorem waitScan_polls (w : List Event) (h : ∀ e ∈ w, e = statusEvent ∨ e = Event.delay 1)
    (rest : List Event) : waitScan true (w ++ rest) = waitScan true rest := by
  induction w with
  | nil => rfl
  | cons e es ih =>
    have ih2 := ih (fun x hx => h x (List.mem_cons_of_mem _ hx))
    rcases h e (List.mem_cons_self _ _) with h1 | h1 <;> subst h1 <;>
      simpa [waitScan, isMutating, Event.opcode, statusEvent, statusSegs] using ih2

theorem waitScan_wait (b : Bool) (w : List Event) (h : IsWaitTrace w) (rest : List Event) :
    waitScan b (w ++ rest) = waitScan true rest := by
  match w, h with
  | e :: es, ⟨h1, h2⟩ =>
    simp at h1
    subst h1
    have := waitScan_polls es (fun x hx => h2 x (List.mem_cons_of_mem _ hx)) rest
    simpa [waitScan, isMutating, Event.opcode, statusEvent, statusSegs] using this

theorem waitScan_wren (b : Bool) (f : SpiFlash) (rest : List Event) :
    waitScan b (wrenEvents f ++ rest) = waitScan b rest := by
  unfold wrenEvents
  split_ifs <;> simp [waitScan, isMutating, Event.opcode, wrenSegs]

theorem waitScan_mutating (e : Event) (he : isMutating e = true) (rest : List Event) :
    waitScan true (e :: rest) = waitScan false rest := by
  simp [waitScan, he]

theorem frameSeg_opcode (f : SpiFlash) (inst addr : Nat) (rest : List Seg) :
    (Event.transaction (frameSeg f inst addr :: rest)).opcode = some inst := by
  rw [frameSeg_eq]
  cases f.addr4byte <;> rfl

theorem waitScan_writeShape (f : SpiFlash) (cs : List Chunk) (ev : List Event)
    (h : WriteShape f cs ev) : waitScan true ev = some true := by
  induction h with
  | nil => rfl
  | cons c cs w ev hw _ ih =>
    rw [List.append_assoc, List.append_assoc, waitScan_wren, List.singleton_append,
      waitScan_mutating _ (by simp [isMutating, programSegs_opcode]), waitScan_wait _ w hw, ih]

theorem waitProtocol_writeData {σ : Type} (P : Port σ) (f : SpiFlash) (hps : 0 < f.pageSize)
    (hps32 : f.pageSize < WORD) (addr : Nat) (buf : List Nat) (bufLen : Nat) (s r : Sys σ)
    (fuel : Nat) (ha : addr < WORD) (h : writeData P f fuel addr buf bufLen s = some r) :
    ∃ ev, r.trace = s.trace ++ ev ∧ WaitProtocol ev := by
  obtain ⟨w, ev, hw, e1, e2⟩ := writeData_shape P f hps hps32 addr buf bufLen s r fuel ha h
  refine ⟨w ++ ev, by rw [e1, List.append_assoc], ?_⟩
  unfold WaitProtocol
  rw [waitScan_wait _ w hw, waitScan_writeShape f _ _ e2]

theorem waitProtocol_erase {σ : Type} (P : Port σ) (f : SpiFlash) (cmd : List Seg)
    (hc : isMutating (Event.transaction cmd) = true) (t fuel : Nat) (s r : Sys σ)
    (h : (waitForWriteComplete P f fuel 0 s).bind (fun s1 =>
      waitForWriteComplete P f fuel t (transact P cmd (writeEnable P f s1)).2) = some r) :
    ∃ ev, r.trace = s.trace ++ ev ∧ WaitProtocol ev := by
  obtain ⟨s1, h1, h2⟩ := Option.bind_eq_some.1 h
  obtain ⟨w1, hw1, t1⟩ := waitForWriteComplete_trace P f fuel 0 s s1 h1
  obtain ⟨w2, hw2, t2⟩ := waitForWriteComplete_trace P f fuel t _ r h2
  refine ⟨w1 ++ (wrenEvents f ++ (Event.transaction cmd :: (w2 ++ []))), ?_, ?_⟩
  · rw [t2]; simp [transact, writeEnable_trace, t1]
  · unfold WaitProtocol
    rw [waitScan_wait _ w1 hw1, waitScan_wren, waitScan_mutating _ hc, waitScan_wait _ w2 hw2]
    rfl

/-- The completion-wait protocol holds for `writeData`, `sectorErase`, `blockErase` and
`chipErase`, whenever they return. -/
theorem waitProtocol_holds {σ : Type} (P : Port σ) (f : SpiFlash) (hps : 0 < f.pageSize)
    (hps32 : f.pageSize < WORD) (addr : Nat) (buf : List Nat) (bufLen : Nat) (s r : Sys σ)
    (fuel : Nat) (ha : addr < WORD)
    (h : writeData P f fuel addr buf bufLen s = some r ∨ sectorErase P f fuel addr s = some r ∨
      blockErase P f fuel addr s = some r ∨ chipErase P f fuel s = some r) :
    ∃ ev, r.trace = s.trace ++ ev ∧ WaitProtocol ev := by
  rcases h with h | h | h | h
  · exact waitProtocol_writeData P f hps hps32 addr buf bufLen s r fuel ha h
  · rw [sectorErase_bind] at h
    exact waitProtocol_erase P f _ (by simp [isMutating, frameSeg_opcode]) _ fuel s r h
  · rw [blockErase_bind] at h
    exact waitProtocol_erase P f _ (by simp [isMutating, frameSeg_opcode]) _ fuel s r h
  · rw [chipErase_bind] at h
    exact waitProtocol_erase P f _ (by decide) _ fuel s r h

/-- The events of `writeStatus`: a completion wait, then the WRSR exchange, and nothing
after it. -/
theorem writeStatus_trace {σ : Type} (P : Port σ) (f : SpiFlash) (fuel status : Nat)
    (s r : Sys σ) (h : writeStatus P f fuel status s = some r) :
    ∃ w, IsWaitTrace w ∧
      r.trace = s.trace ++ (w ++ [Event.transaction
        [{ tx := some [0x01, status], rx := false, len := 2 }]]) ∧
      waitScan false (w ++ [Event.transaction
        [{ tx := some [0x01, status], rx := false, len := 2 }]]) = some false := by
  unfold writeStatus at h
  cases hw : waitForWriteComplete P f fuel 0 s with
  | none => rw [hw] at h; simp at h
  | some s1 =>
    rw [hw] at h
    simp only [Option.some.injEq] at h
    obtain ⟨w, hw1, hw2⟩ := waitForWriteComplete_trace P f fuel 0 s s1 hw
    refine ⟨w, hw1, ?_, ?_⟩
    · rw [← h]; simp [transact, hw2]
    · rw [waitScan_wait _ w hw1]; rfl

/-- Claim C10 at its failing input. `writeStatus(0)` on an idle chip reads the status register
once, sends the status-register write `[0x01, 0x00]` and returns: no status read follows the
mutating command, so the completion-wait protocol does not hold for `writeStatus`. -/
theorem writeStatus_no_final_wait :
    ∃ r, writeStatus norPort SpiFlashDefault 1 0 (boot blankNor) = some r ∧
      r.trace = [statusEvent,
        Event.transaction [{ tx := some [0x01, 0], rx := false, len := 2 }]] ∧
      r.trace.getLast? =
        some (Event.transaction [{ tx := some [0x01, 0], rx := false, len := 2 }]) ∧
      ¬ WaitProtocol r.trace :=
  ⟨_, rfl, rfl, rfl, by decide⟩


/-! ## Chunking engine: the read loop -/

theorem storeAt_length (b : List Nat) (o : Nat) (rx : List Nat) (h : o + rx.length ≤ b.length) :
    (storeAt b o rx).length = b.length := by
  simp [storeAt]; omega

theorem storeAt_getElem? (b : List Nat) (o : Nat) (rx : List Nat) (h : o + rx.length ≤ b.length)
    (i : Nat) :
    (storeAt b o rx)[i]? =
      if i < o then b[i]? else if i < o + rx.length then rx[i - o]? else b[i]? := by
  unfold storeAt
  by_cases h1 : i < o
  · rw [if_pos h1, List.append_assoc, List.getElem?_append_left (by simp; omega),
      List.getElem?_take_of_lt h1]
  · rw [if_neg h1, List.append_assoc, List.getElem?_append_right (by simp; omega)]
    have e : (List.take o b).length = o := by simp; omega
    rw [e]
    by_cases h2 : i < o + rx.length
    · rw [if_pos h2, List.getElem?_append_left (by omega)]
    · rw [if_neg h2, List.getElem?_append_right (by omega), List.getElem?_drop]
      congr 1; omega

/-- The read loop over any port on which a READ at `a` followed by an `n`-byte pull returns
the `n` bytes of the memory from `a` on and leaves the memory alone. -/
theorem readLoop_correct {σ : Type} (P : Port σ) (f : SpiFlash) (mem : σ → Nat → Nat)
    (ok : σ → Prop) (limit : Nat) (hlimit : limit ≤ WORD) (hps : 0 < f.pageSize)
    (hps32 : f.pageSize < WORD)
    (hread : ∀ (d : σ) (a n : Nat), ok d → a + n ≤ limit →
      (P.transfer [frameSeg f 0x03 a, { tx := none, rx := true, len := n }] d).1
        = (List.range n).map (fun i => mem d (a + i)) ∧
      mem (P.transfer [frameSeg f 0x03 a, { tx := none, rx := true, len := n }] d).2 = mem d ∧
      ok (P.transfer [frameSeg f 0x03 a, { tx := none, rx := true, len := n }] d).2) :
    ∀ (n addr : Nat) (b : List Nat) (cur len : Nat) (s : Sys σ), len ≤ n → ok s.dev →
    addr < WORD → addr + len ≤ limit → cur + len ≤ b.length →
    ∃ r, readLoop P f n addr b cur len s = some r ∧ r.1.length = b.length ∧
      (∀ i, i < cur → r.1[i]? = b[i]?) ∧
      (∀ i, i < len → r.1[cur + i]? = some (mem s.dev (addr + i))) ∧
      (∀ i, cur + len ≤ i → r.1[i]? = b[i]?) ∧
      mem r.2.dev = mem s.dev ∧ ok r.2.dev := by
  intro n
  induction n with
  | zero =>
    intro addr b cur len s hl hok _ _ _
    have : len = 0 := by omega
    subst this
    exact ⟨(b, s), by simp [readLoop], rfl, fun _ _ => rfl, fun i hi => by omega,
      fun _ _ => rfl, rfl, hok⟩
  | succ n ih =>
    intro addr b cur len s hl hok ha hin hb
    by_cases hl0 : len > 0
    · obtain ⟨hc1, hc2⟩ := chunkCount_pos f.pageSize addr len hps hps32 ha hl0
      obtain ⟨hrx0, hmem0, hok0⟩ := hread s.dev addr len hok hin
      have hrx : (transact P [frameSeg f 0x03 addr,
          { tx := none, rx := true, len := len }] s).1
            = (List.range len).map (fun i => mem s.dev (addr + i)) := hrx0
      have hmem : mem (transact P [frameSeg f 0x03 addr,
          { tx := none, rx := true, len := len }] s).2.dev = mem s.dev := hmem0
      have hok2 : ok (transact P [frameSeg f 0x03 addr,
          { tx := none, rx := true, len := len }] s).2.dev := hok0
      have hrxlen : ((transact P [frameSeg f 0x03 addr,
          { tx := none, rx := true, len := len }] s).1).length = len := by
        rw [hrx]; simp
      have hst : cur + ((transact P [frameSeg f 0x03 addr,
          { tx := none, rx := true, len := len }] s).1).length ≤ b.length := by
        rw [hrxlen]; exact hb
      obtain ⟨r, e1, e2, e3, e4, e5, e6, e7⟩ := ih (add32 addr (chunkCount f.pageSize addr len))
        (storeAt b cur (transact P [frameSeg f 0x03 addr,
          { tx := none, rx := true, len := len }] s).1)
        (cur + chunkCount f.pageSize addr len) (len - chunkCount f.pageSize addr len)
        (transact P [frameSeg f 0x03 addr, { tx := none, rx := true, len := len }] s).2
        (by omega) hok2 (add32_lt _ _)
        (by unfold add32 WORD at *; omega)
        (by rw [storeAt_length _ _ _ hst]; omega)
      refine ⟨r, ?_, ?_, ?_, ?_, ?_, ?_, e7⟩
      · rw [readLoop, if_pos hl0, if_neg (by omega)]
        exact e1
      · rw [e2, storeAt_length _ _ _ hst]
      · intro i hi
        rw [e3 i (by omega), storeAt_getElem? _ _ _ hst, if_pos hi]
      · intro i hi
        by_cases hic : i < chunkCount f.pageSize addr len
        · rw [e3 (cur + i) (by omega), storeAt_getElem? _ _ _ hst, if_neg (by omega),
            if_pos (by rw [hrxlen]; omega)]
          rw [hrx]
          simp [hi]
        · obtain ⟨j, rfl⟩ : ∃ j, i = chunkCount f.pageSize addr len + j := ⟨i - chunkCount f.pageSize addr len, by omega⟩
          have := e4 j (by omega)
          rw [← Nat.add_assoc, this, hmem]
          congr 2
          unfold add32 WORD at *
          rw [Nat.mod_eq_of_lt (by omega)]; omega
      · intro i hi
        rw [e5 i (by omega), storeAt_getElem? _ _ _ hst, if_neg (by omega),
          if_neg (by rw [hrxlen]; omega)]
      · rw [e6]; exact hmem
    · have : len = 0 := by omega
      subst this
      exact ⟨(b, s), by rw [readLoop, if_neg hl0], rfl, fun _ _ => rfl, fun i hi => by omega,
        fun _ _ => rfl, rfl, hok⟩


/-! ## The NOR chip: addressed commands -/

theorem mosi_frame (f : SpiFlash) (inst a : Nat) (rest : List Seg) :
    mosi (frameSeg f inst a :: rest) =
      (if f.addr4byte then
        [inst, (a >>> 24) % 256, (a >>> 16) % 256, (a >>> 8) % 256, a % 256]
       else [inst, (a >>> 16) % 256, (a >>> 8) % 256, a % 256]) ++ mosi rest := by
  rw [frameSeg_eq]
  cases f.addr4byte <;> simp [mosi]

theorem nor_cmdAddr (f : SpiFlash) (c : Nor) (hmode : c.addr4 = f.addr4byte) (inst a : Nat)
    (rest : List Seg) :
    c.cmdAddr (mosi (frameSeg f inst a :: rest)) = a % addrWidth f % c.capacity := by
  rw [mosi_frame]
  unfold Nor.cmdAddr Nor.addrLen addrWidth
  rw [hmode]
  cases f.addr4byte <;> simp [decodeAddr, Nat.shiftRight_eq_div_pow] <;> congr 1 <;> omega

theorem nor_read (f : SpiFlash) (c : Nor) (hbusy : c.busy = 0) (hmode : c.addr4 = f.addr4byte)
    (a n : Nat) (hcap : a + n ≤ c.capacity) (hw : a + n ≤ addrWidth f) :
    (norPort.transfer [frameSeg f 0x03 a, { tx := none, rx := true, len := n }] c).1
      = (List.range n).map (fun i => c.flash (a + i)) ∧
    (norPort.transfer [frameSeg f 0x03 a, { tx := none, rx := true, len := n }] c).2
      = { c with resetEnabled := false } := by
  constructor
  · simp only [norPort]
    have hfr : (frameSeg f 0x03 a).rx = false ∧ (frameSeg f 0x03 a).len = 1 + c.addrLen := by
      rw [frameSeg_eq]; unfold Nor.addrLen; rw [hmode]; cases f.addr4byte <;> simp
    simp only [rxBytes, hfr.1, hfr.2, List.append_nil, if_true, Bool.false_eq_true, if_false,
      List.nil_append, Nat.zero_add]
    apply List.map_congr_left
    intro i hi
    have hi2 : i < n := List.mem_range.1 hi
    have hca := nor_cmdAddr f c hmode 0x03 a [{ tx := none, rx := true, len := n }]
    have hhead : (mosi [frameSeg f 0x03 a, { tx := none, rx := true, len := n }]).head? = some 3 := by
      rw [mosi_frame]; cases f.addr4byte <;> rfl
    unfold Nor.miso
    rw [hhead]
    simp only [hbusy, hca]
    rw [Nat.mod_eq_of_lt (show a < addrWidth f by omega), Nat.mod_eq_of_lt (show a < c.capacity by omega)]
    simp
    rw [Nat.mod_eq_of_lt (by omega)]
  · simp only [norPort]
    have hhead : (mosi [frameSeg f 0x03 a, { tx := none, rx := true, len := n }]).head? = some 3 := by
      rw [mosi_frame]; cases f.addr4byte <;> rfl
    unfold Nor.step
    rw [hhead]
    simp [hbusy, Nor.exec]


/-- Claim C4. Over a flash model in which a READ (0x03) at `a` followed by an `n`-byte pull
returns the bytes `mem[a .. a+n)` and leaves the memory alone, for every page size from 1 on
and every range `[addr, addr+len)` inside the addressing width, `readData(addr, buf, len)`
returns with `buf[i] = mem[addr+i]` for every `i < len`, whatever number of page boundaries
the range spans; the rest of the buffer and the flash content are unchanged. -/
theorem readData_across_pages {σ : Type} (P : Port σ) (f : SpiFlash) (mem : σ → Nat → Nat)
    (ok : σ → Prop)
    (hread : ∀ (d : σ) (a n : Nat), ok d → a + n ≤ addrWidth f →
      (P.transfer [frameSeg f 0x03 a, { tx := none, rx := true, len := n }] d).1
        = (List.range n).map (fun i => mem d (a + i)) ∧
      mem (P.transfer [frameSeg f 0x03 a, { tx := none, rx := true, len := n }] d).2 = mem d ∧
      ok (P.transfer [frameSeg f 0x03 a, { tx := none, rx := true, len := n }] d).2)
    (hps : 1 ≤ f.pageSize) (hps32 : f.pageSize < WORD) (addr len : Nat) (buf : List Nat)
    (hbuf : len ≤ buf.length) (ha : addr < WORD) (hin : addr + len ≤ addrWidth f)
    (s : Sys σ) (hok : ok s.dev) :
    ∃ r, readData P f addr buf len s = some r ∧
      (∀ i, i < len → r.1[i]? = some (mem s.dev (addr + i))) ∧
      r.1.length = buf.length ∧ (∀ i, len ≤ i → r.1[i]? = buf[i]?) ∧
      mem r.2.dev = mem s.dev := by
  have hw : addrWidth f ≤ WORD := by unfold addrWidth WORD; split_ifs <;> norm_num
  obtain ⟨r, e1, e2, -, e4, e5, e6, -⟩ := readLoop_correct P f mem ok (addrWidth f) hw hps hps32
    hread len addr buf 0 len s (Nat.le_refl _) hok ha hin (by omega)
  exact ⟨r, e1, fun i hi => by simpa using e4 i hi, e2, fun i hi => e5 i (by omega), e6⟩

theorem readData_across_pages_witness :
    1 ≤ SpiFlashDefault.pageSize ∧ 640 + 256 ≤ addrWidth SpiFlashDefault ∧
    ∃ r, readData norPort SpiFlashDefault 640 (List.replicate 256 0) 256 (boot blankNor) = some r ∧
      (∀ i, i < 256 → r.1[i]? = some (blankNor.flash (640 + i))) ∧
      r.1.length = (List.replicate 256 0).length ∧
      (∀ i, 256 ≤ i → r.1[i]? = (List.replicate 256 0)[i]?) ∧
      r.2.dev.flash = blankNor.flash :=
  ⟨by decide, by decide,
    readData_across_pages norPort SpiFlashDefault Nor.flash
      (fun c => c.busy = 0 ∧ c.addr4 = false ∧ c.capacity = 16777216)
      (fun d a n hd hn =>
        have h := nor_read SpiFlashDefault d hd.1 hd.2.1 a n
          (by rw [hd.2.2]; exact hn) hn
        ⟨h.1, by rw [h.2], by rw [h.2]; exact hd⟩)
      (by decide) (by decide) 640 256 (List.replicate 256 0) (by rw [List.length_replicate]) (by decide) (by decide)
      (boot blankNor) ⟨rfl, rfl, rfl⟩⟩


/-! ## The NOR chip: completion waits that succeed -/

theorem sub32_mod (x y : Nat) : sub32 (x % WORD) (y % WORD) = sub32 x y := by
  unfold sub32; simp [Nat.mod_mod]

theorem nor_sysMillis (s : Sys Nor) :
    sysMillis norPort s =
      (s.dev.clock s.dev.reads % WORD,
       { dev := { s.dev with reads := s.dev.reads + 1 }, trace := s.trace }) := rfl

theorem nor_waitLoop_done (T B r0 : Nat) (clock : Nat → Nat) (hclock : Timely clock B T) :
    ∀ (b : Nat) (s : Sys Nor), s.dev.clock = clock → s.dev.busy = b → r0 < s.dev.reads →
    s.dev.reads + b ≤ r0 + B + 1 →
    ∃ r, waitLoop norPort (b + 1) (clock r0 % WORD) T s = some r ∧
      r.dev = { s.dev with busy := 0, reads := s.dev.reads + b } := by
  intro b
  induction b with
  | zero =>
    intro s hc hb _ _
    refine ⟨_, by rw [waitLoop]; simp only [nor_isWriteInProgress, hb]; rfl, ?_⟩
    obtain ⟨d, tr⟩ := s
    cases d
    simp_all
  | succ b ih =>
    intro s hc hb h1 h2
    have helapsed : sub32 (s.dev.clock s.dev.reads % WORD) (clock r0 % WORD) < T := by
      rw [hc, sub32_mod]
      have := hclock r0 (s.dev.reads - r0) (by omega) (by omega)
      rwa [show r0 + (s.dev.reads - r0) = s.dev.reads by omega] at this
    rw [waitLoop]
    simp only [nor_isWriteInProgress, nor_sysMillis, hb]
    simp only [Nat.zero_lt_succ, decide_True, if_true, Nat.add_sub_cancel]
    rw [if_pos helapsed]
    have key : ∀ s3 : Sys Nor, s3.dev = { s.dev with busy := b, reads := s.dev.reads + 1 } →
        ∃ r, waitLoop norPort (b + 1) (clock r0 % WORD) T s3 = some r ∧
          r.dev = { s.dev with busy := 0, reads := s.dev.reads + (b + 1) } := by
      intro s3 h3
      obtain ⟨r, e1, e2⟩ := ih s3 (by rw [h3]; exact hc) (by rw [h3]) (by rw [h3]; simp; omega)
        (by rw [h3]; simp; omega)
      refine ⟨r, e1, ?_⟩
      rw [e2, h3]
      simp [Nat.add_assoc, Nat.add_comm 1 b]
    split_ifs
    · exact key _ rfl
    · exact key _ rfl

theorem nor_wait_done (f : SpiFlash) (t B : Nat) (s : Sys Nor)
    (hclock : Timely s.dev.clock B (effectiveTimeout f t)) (hbusy : s.dev.busy ≤ B) :
    ∃ r, (∀ fuel, s.dev.busy + 1 ≤ fuel → waitForWriteComplete norPort f fuel t s = some r) ∧
      r.dev = { s.dev with busy := 0, reads := s.dev.reads + 1 + s.dev.busy } := by
  obtain ⟨r, e1, e2⟩ := nor_waitLoop_done (effectiveTimeout f t) B s.dev.reads s.dev.clock hclock
    s.dev.busy (sysMillis norPort s).2 rfl rfl (by simp [nor_sysMillis])
    (by simp [nor_sysMillis]; omega)
  refine ⟨r, fun fuel hf => ?_, by rw [e2]; simp [nor_sysMillis]⟩
  exact waitLoop_mono norPort _ _ _ _ r e1 fuel hf


/-! ## The NOR chip: write enable and page program -/

theorem nor_writeEnable (f : SpiFlash) (s : Sys Nor) (hbusy : s.dev.busy = 0) :
    (writeEnable norPort f s).dev = { s.dev with wel := true, resetEnabled := false } := by
  unfold writeEnable
  split_ifs <;>
    simp [transact, sysDelayMicroseconds, norPort, wrenSegs, mosi, Nor.step, Nor.exec, hbusy]

theorem programFrom_spec (ps base : Nat) : ∀ (d : List Nat) (off : Nat) (fl : Nat → Nat) (x : Nat),
    off + d.length ≤ ps →
    programFrom ps base off d fl x =
      if base + off ≤ x ∧ x < base + off + d.length then fl x &&& d.getD (x - (base + off)) 0
      else fl x := by
  intro d
  induction d with
  | nil =>
    intro off fl x _
    rw [programFrom, if_neg (by simp only [List.length_nil]; omega)]
  | cons b bs ih =>
    intro off fl x h
    rw [programFrom]
    simp only [List.length_cons] at h ⊢
    by_cases hbs : bs = []
    · subst hbs
      simp only [programFrom, List.length_nil]
      by_cases hx : x = base + off
      · subst hx; simp
      · rw [if_neg hx, if_neg (by omega)]
    · have hlen : 0 < bs.length := List.length_pos.2 hbs
      rw [Nat.mod_eq_of_lt (by omega), ih (off + 1) _ x (by omega)]
      by_cases hx : x = base + off
      · subst hx
        rw [if_neg (by omega), if_pos rfl, if_pos (by omega)]
        simp
      · rw [if_neg hx]
        by_cases hin : base + (off + 1) ≤ x ∧ x < base + (off + 1) + bs.length
        · rw [if_pos hin, if_pos (by omega)]
          congr 1
          rw [show x - (base + off) = (x - (base + (off + 1))) + 1 by omega]
          simp
        · rw [if_neg hin, if_neg (by omega)]

theorem nor_program (f : SpiFlash) (s : Sys Nor) (hbusy : s.dev.busy = 0)
    (hwel : s.dev.wel = true) (hmode : s.dev.addr4 = f.addr4byte) (a : Nat) (d : List Nat)
    (count : Nat) (ha : a < addrWidth f) (hcap : a < s.dev.capacity) (hd : d.length = count) :
    (transact norPort [frameSeg f 0x02 a, { tx := some d, rx := false, len := count }] s).2.dev
      = { s.dev with
          flash := programFrom s.dev.pageSize (a - a % s.dev.pageSize) (a % s.dev.pageSize) d
            s.dev.flash,
          wel := false, busy := s.dev.programPolls, resetEnabled := false } := by
  have hca := nor_cmdAddr f s.dev hmode 0x02 a [{ tx := some d, rx := false, len := count }]
  rw [Nat.mod_eq_of_lt ha, Nat.mod_eq_of_lt hcap] at hca
  have hhead : (mosi [frameSeg f 0x02 a, { tx := some d, rx := false, len := count }]).head?
      = some 2 := by
    rw [mosi_frame]; cases f.addr4byte <;> rfl
  have hdata : (mosi [frameSeg f 0x02 a, { tx := some d, rx := false, len := count }]).drop
      (1 + s.dev.addrLen) = d := by
    rw [mosi_frame]; unfold Nor.addrLen; rw [hmode]
    cases f.addr4byte <;> simp [mosi, ← hd]
  simp only [transact, norPort]
  unfold Nor.step
  rw [hhead]
  simp only [hbusy, Nor.exec, hwel, hca, hdata]
  simp


/-! ## The NOR chip: the write loop -/

theorem sameSetup_refl (c : Nor) : SameSetup c c := ⟨rfl, rfl, rfl, rfl, rfl⟩

theorem sameSetup_trans (a b c : Nor) (h1 : SameSetup a b) (h2 : SameSetup b c) :
    SameSetup a c :=
  ⟨h2.1.trans h1.1, h2.2.1.trans h1.2.1, h2.2.2.1.trans h1.2.2.1, h2.2.2.2.1.trans h1.2.2.2.1,
    h2.2.2.2.2.trans h1.2.2.2.2⟩

/-- One chunk on the chip: write enable, page program, completion wait. -/
theorem nor_chunk (f : SpiFlash) (B : Nat) (s : Sys Nor) (addr : Nat) (d : List Nat)
    (hbusy : s.dev.busy = 0) (hmode : s.dev.addr4 = f.addr4byte)
    (ha : addr < addrWidth f) (hcap : addr < s.dev.capacity)
    (hpage : addr % s.dev.pageSize + d.length ≤ s.dev.pageSize)
    (hpolls : s.dev.programPolls ≤ B)
    (hclock : Timely s.dev.clock B (effectiveTimeout f f.pageProgramTimeoutMs)) :
    ∃ r, (∀ fuel, s.dev.programPolls + 1 ≤ fuel →
        waitForWriteComplete norPort f fuel f.pageProgramTimeoutMs
          (transact norPort [frameSeg f 0x02 addr, { tx := some d, rx := false, len := d.length }]
            (writeEnable norPort f s)).2 = some r) ∧
      r.dev.busy = 0 ∧ SameSetup s.dev r.dev ∧
      (∀ x, r.dev.flash x =
        if addr ≤ x ∧ x < addr + d.length then s.dev.flash x &&& d.getD (x - addr) 0
        else s.dev.flash x) := by
  have h1 := nor_writeEnable f s hbusy
  have h2 := nor_program f (writeEnable norPort f s) (by rw [h1]; exact hbusy) (by rw [h1])
    (by rw [h1]; exact hmode) addr d d.length ha (by rw [h1]; exact hcap) rfl
  obtain ⟨r, e1, e2⟩ := nor_wait_done f f.pageProgramTimeoutMs B
    (transact norPort [frameSeg f 0x02 addr, { tx := some d, rx := false, len := d.length }]
      (writeEnable norPort f s)).2
    (by rw [h2, h1]; exact hclock) (by rw [h2, h1]; exact hpolls)
  refine ⟨r, fun fuel hf => e1 fuel (by rw [h2, h1]; exact hf), by rw [e2], ?_, ?_⟩
  · rw [e2, h2, h1]; exact ⟨rfl, rfl, rfl, rfl, rfl⟩
  · intro x
    have hm : addr % s.dev.pageSize ≤ addr := Nat.mod_le _ _
    have := programFrom_spec s.dev.pageSize (addr - addr % s.dev.pageSize) d
      (addr % s.dev.pageSize) s.dev.flash x hpage
    rw [show addr - addr % s.dev.pageSize + addr % s.dev.pageSize = addr by omega] at this
    rw [e2, h2, h1]
    exact this

theorem addrWidth_le (f : SpiFlash) : addrWidth f ≤ WORD := by
  unfold addrWidth WORD; split_ifs <;> norm_num

/-- The write loop on the chip: it returns, leaves the chip idle, ANDs the data into the range
`[addr, addr+len)` and changes no other byte. -/
theorem nor_writeLoop (f : SpiFlash) (B : Nat) (hps : 0 < f.pageSize) (hps32 : f.pageSize < WORD) :
    ∀ (n addr : Nat) (cur : List Nat) (len : Nat) (s : Sys Nor), len ≤ n → len ≤ cur.length →
    s.dev.busy = 0 → s.dev.addr4 = f.addr4byte → s.dev.pageSize = f.pageSize →
    addr < WORD → addr + len ≤ s.dev.capacity → addr + len ≤ addrWidth f →
    s.dev.programPolls ≤ B →
    Timely s.dev.clock B (effectiveTimeout f f.pageProgramTimeoutMs) →
    ∃ r, (∃ N, ∀ fuel, N ≤ fuel → writeLoop norPort f fuel n addr cur len s = some r) ∧
      r.dev.busy = 0 ∧ SameSetup s.dev r.dev ∧
      (∀ i, i < len → r.dev.flash (addr + i) = s.dev.flash (addr + i) &&& cur.getD i 0) ∧
      (∀ x, x < addr ∨ addr + len ≤ x → r.dev.flash x = s.dev.flash x) := by
  intro n
  induction n with
  | zero =>
    intro addr cur len s hl _ hb _ _ _ _ _ _ _
    have : len = 0 := by omega
    subst this
    exact ⟨s, ⟨0, fun fuel _ => by simp [writeLoop]⟩, hb, sameSetup_refl _,
      fun i hi => by omega, fun _ _ => rfl⟩
  | succ n ih =>
    intro addr cur len s hl hcur hb hmode hpage ha hcap hwid hpolls hclock
    by_cases hl0 : len > 0
    · obtain ⟨hc1, hc2⟩ := chunkCount_pos f.pageSize addr len hps hps32 ha hl0
      have hceq := chunkCount_eq f.pageSize addr len hps hps32 ha
      have hmod : addr % f.pageSize < f.pageSize := Nat.mod_lt _ hps
      have hww := addrWidth_le f
      have htl : (cur.take (chunkCount f.pageSize addr len)).length
          = chunkCount f.pageSize addr len := by
        rw [List.length_take]; omega
      obtain ⟨s3, w1, w2, w3, w4⟩ := nor_chunk f B s addr
        (cur.take (chunkCount f.pageSize addr len)) hb hmode (by omega) (by omega)
        (by rw [htl, hpage]; omega) hpolls hclock
      rw [htl] at w1 w4
      obtain ⟨c1, c2, c3, c4, c5⟩ := w3
      obtain ⟨r, ⟨N2, hN2⟩, r2, r3, r4, r5⟩ := ih (add32 addr (chunkCount f.pageSize addr len))
        (cur.drop (chunkCount f.pageSize addr len)) (len - chunkCount f.pageSize addr len) s3
        (by omega) (by rw [List.length_drop]; omega) w2 (by rw [c4]; exact hmode)
        (by rw [c2]; exact hpage) (add32_lt _ _)
        (by rw [c1]; unfold add32 WORD at *; omega)
        (by unfold add32 WORD at *; omega)
        (by rw [c3]; exact hpolls) (by rw [c5]; exact hclock)
      refine ⟨r, ⟨max (s.dev.programPolls + 1) N2, fun fuel hf => ?_⟩, r2,
        sameSetup_trans _ _ _ ⟨c1, c2, c3, c4, c5⟩ r3, ?_, ?_⟩
      · rw [writeLoop, if_pos hl0, if_neg (by omega)]
        simp only
        rw [w1 fuel (by omega)]
        exact hN2 fuel (by omega)
      · intro i hi
        by_cases hic : i < chunkCount f.pageSize addr len
        · rw [r5 (addr + i) (by unfold add32 WORD at *; omega), w4, if_pos (by omega)]
          congr 1
          rw [show addr + i - addr = i by omega]
          simp [List.getD, List.getElem?_take, hic]
        · obtain ⟨j, rfl⟩ : ∃ j, i = chunkCount f.pageSize addr len + j :=
            ⟨i - chunkCount f.pageSize addr len, by omega⟩
          have e : add32 addr (chunkCount f.pageSize addr len)
              = addr + chunkCount f.pageSize addr len := by
            unfold add32 WORD at *
            rw [Nat.mod_eq_of_lt (by omega)]
          have := r4 j (by omega)
          rw [e, Nat.add_assoc] at this
          rw [this, w4, if_neg (by omega)]
          congr 1
          simp [List.getD, List.getElem?_drop]
      · intro x hx
        rw [r5 x (by unfold add32 WORD at *; omega), w4, if_neg (by omega)]
    · have : len = 0 := by omega
      subst this
      exact ⟨s, ⟨0, fun fuel _ => by rw [writeLoop, if_neg hl0]⟩, hb, sameSetup_refl _,
        fun i hi => by omega, fun _ _ => rfl⟩


/-! ## Round trip -/

theorem and_erased (d : Nat) (h : d < 256) : 0xFF &&& d = d := by
  rw [Nat.and_comm, and_255, Nat.mod_eq_of_lt h]

/-- Method `writeData` on the chip: it returns, leaves the chip idle, ANDs the data into
`[a, a+len)` and changes no other byte. -/
theorem nor_writeData (f : SpiFlash) (c : Nor) (tr : List Event) (a : Nat) (data : List Nat)
    (B : Nat) (hps : 1 ≤ f.pageSize) (hps32 : f.pageSize < WORD)
    (hpage : c.pageSize = f.pageSize) (hmode : c.addr4 = f.addr4byte) (ha : a < WORD)
    (hchip : a + data.length ≤ c.capacity) (hwidth : a + data.length ≤ addrWidth f)
    (hbusy : c.busy ≤ B) (hpolls : c.programPolls ≤ B)
    (hwait : Timely c.clock B (effectiveTimeout f 0))
    (hprog : Timely c.clock B (effectiveTimeout f f.pageProgramTimeoutMs)) :
    ∃ w, (∃ N, ∀ fuel, N ≤ fuel →
        writeData norPort f fuel a data data.length { dev := c, trace := tr } = some w) ∧
      w.dev.busy = 0 ∧ SameSetup c w.dev ∧
      (∀ i, i < data.length → w.dev.flash (a + i) = c.flash (a + i) &&& data.getD i 0) ∧
      (∀ x, x < a ∨ a + data.length ≤ x → w.dev.flash x = c.flash x) := by
  obtain ⟨s1, e1, e2⟩ := nor_wait_done f 0 B { dev := c, trace := tr } hwait hbusy
  obtain ⟨w, ⟨N2, hN2⟩, w2, w3, w4, w5⟩ := nor_writeLoop f B hps hps32 data.length a data
    data.length s1 (Nat.le_refl _) (Nat.le_refl _) (by rw [e2]) (by rw [e2]; exact hmode)
    (by rw [e2]; exact hpage) ha (by rw [e2]; exact hchip) hwidth (by rw [e2]; exact hpolls)
    (by rw [e2]; exact hprog)
  refine ⟨w, ⟨max (c.busy + 1) N2, fun fuel hf => ?_⟩, w2, ?_, ?_, ?_⟩
  · unfold writeData
    rw [e1 fuel (by simp only; omega)]
    exact hN2 fuel (by omega)
  · rw [e2] at w3; exact w3
  · intro i hi; rw [w4 i hi, e2]
  · intro x hx; rw [w5 x hx, e2]

/-- Method `readData` on the idle chip returns the bytes of the flash. -/
theorem nor_readData (f : SpiFlash) (s : Sys Nor) (a len : Nat) (out : List Nat)
    (hps : 1 ≤ f.pageSize) (hps32 : f.pageSize < WORD) (hbusy : s.dev.busy = 0)
    (hmode : s.dev.addr4 = f.addr4byte) (ha : a < WORD) (hchip : a + len ≤ s.dev.capacity)
    (hwidth : a + len ≤ addrWidth f) (hout : len ≤ out.length) :
    ∃ r, readData norPort f a out len s = some r ∧ r.1.length = out.length ∧
      (∀ i, i < len → r.1[i]? = some (s.dev.flash (a + i))) ∧
      (∀ i, len ≤ i → r.1[i]? = out[i]?) ∧ r.2.dev.flash = s.dev.flash := by
  have hww := addrWidth_le f
  obtain ⟨r, e1, e2, -, e4, e5, e6, -⟩ := readLoop_correct norPort f Nor.flash
    (fun d => d.busy = 0 ∧ d.addr4 = f.addr4byte ∧ d.capacity = s.dev.capacity)
    (min s.dev.capacity (addrWidth f)) (by omega) hps hps32
    (fun d x n hd hn =>
      have h := nor_read f d hd.1 hd.2.1 x n (by rw [hd.2.2]; omega) (by omega)
      ⟨h.1, by rw [h.2], by rw [h.2]; exact hd⟩)
    len a out 0 len s (Nat.le_refl _) ⟨hbusy, hmode, rfl⟩ ha (by omega) (by omega)
  exact ⟨r, e1, e2, fun i hi => by simpa using e4 i hi, fun i hi => e5 i (by omega), e6⟩

/-- Claim C1. Round trip over the NOR flash model. The chip has the driver's page size and
addressing mode, `[a, a+l)` lies inside the chip and inside the addressing width, the data
are bytes, every byte of `[a, a+l)` is erased (0xFF), and the write-in-progress bit clears
within the timeouts (`Timely`, for the default wait and for the page-program wait). Then
`writeData(a, data, l)` returns, and `readData(a, out, l)` after it leaves `out` equal to
`data`. -/
theorem write_read_roundtrip (f : SpiFlash) (c : Nor) (tr : List Event) (a : Nat)
    (data out : List Nat) (B : Nat) (hps : 1 ≤ f.pageSize) (hps32 : f.pageSize < WORD)
    (hpage : c.pageSize = f.pageSize) (hmode : c.addr4 = f.addr4byte) (ha : a < WORD)
    (hchip : a + data.length ≤ c.capacity) (hwidth : a + data.length ≤ addrWidth f)
    (hbytes : ∀ d ∈ data, d < 256) (herased : ∀ i, i < data.length → c.flash (a + i) = 0xFF)
    (hbusy : c.busy ≤ B) (hpolls : c.programPolls ≤ B)
    (hwait : Timely c.clock B (effectiveTimeout f 0))
    (hprog : Timely c.clock B (effectiveTimeout f f.pageProgramTimeoutMs))
    (hout : out.length = data.length) :
    ∃ N, ∀ fuel, N ≤ fuel → ∃ w r,
      writeData norPort f fuel a data data.length { dev := c, trace := tr } = some w ∧
      readData norPort f a out data.length w = some r ∧ r.1 = data := by
  obtain ⟨w, ⟨N, hN⟩, w2, w3, w4, -⟩ := nor_writeData f c tr a data B hps hps32 hpage hmode ha
    hchip hwidth hbusy hpolls hwait hprog
  obtain ⟨r, r1, r2, r3, -, -⟩ := nor_readData f w a data.length out hps hps32 w2
    (by rw [w3.2.2.2.1]; exact hmode) ha (by rw [w3.1]; exact hchip) hwidth (by omega)
  refine ⟨N, fun fuel hf => ⟨w, r, hN fuel hf, r1, ?_⟩⟩
  apply List.ext_getElem?
  intro i
  by_cases hi : i < data.length
  · rw [r3 i hi, w4 i hi, herased i hi, List.getElem?_eq_getElem hi]
    have hd : data.getD i 0 = data[i] := by simp [List.getD, List.getElem?_eq_getElem hi]
    rw [hd, and_erased _ (hbytes _ (List.getElem_mem _))]
  · rw [List.getElem?_eq_none (by omega), List.getElem?_eq_none (by omega)]

theorem blankNor_timely (B T : Nat) (hT : 0 < T) : Timely blankNor.clock B T := by
  intro i k _ _
  simpa [blankNor, sub32, WORD] using hT

theorem write_read_roundtrip_witness :
    (∀ i, i < (List.range 256).length → blankNor.flash (0 + i) = 0xFF) ∧
    (∃ N, ∀ fuel, N ≤ fuel → ∃ w r,
      writeData norPort SpiFlashDefault fuel 0 (List.range 256) (List.range 256).length
        { dev := blankNor, trace := [] } = some w ∧
      readData norPort SpiFlashDefault 0 (List.replicate 256 0) (List.range 256).length w
        = some r ∧ r.1 = List.range 256) ∧
    (∃ N, ∀ fuel, N ≤ fuel → ∃ w r,
      writeData norPort SpiFlashDefault fuel (256 + 7) [7] [7].length
        { dev := blankNor, trace := [] } = some w ∧
      readData norPort SpiFlashDefault (256 + 7) [0] [7].length w = some r ∧ r.1 = [7]) ∧
    (∃ N, ∀ fuel, N ≤ fuel → ∃ w r,
      writeData norPort SpiFlashDefault fuel 1024 (List.replicate 1024 0xA5)
        (List.replicate 1024 0xA5).length { dev := blankNor, trace := [] } = some w ∧
      readData norPort SpiFlashDefault 1024 (List.replicate 1024 0)
        (List.replicate 1024 0xA5).length w = some r ∧ r.1 = List.replicate 1024 0xA5) :=
  ⟨fun _ _ => rfl,
   write_read_roundtrip SpiFlashDefault blankNor [] 0 (List.range 256) (List.replicate 256 0) 2
    (by decide) (by decide) rfl rfl (by decide) (by rw [List.length_range]; decide)
    (by rw [List.length_range]; decide) (fun d hd => List.mem_range.1 hd) (fun _ _ => rfl)
    (by decide) (by decide) (blankNor_timely 2 _ (by decide)) (blankNor_timely 2 _ (by decide))
    (by rw [List.length_range, List.length_replicate]),
   write_read_roundtrip SpiFlashDefault blankNor [] (256 + 7) [7] [0] 2
    (by decide) (by decide) rfl rfl (by decide) (by decide) (by decide)
    (by decide) (fun _ _ => rfl)
    (by decide) (by decide) (blankNor_timely 2 _ (by decide)) (blankNor_timely 2 _ (by decide))
    rfl,
   write_read_roundtrip SpiFlashDefault blankNor [] 1024 (List.replicate 1024 0xA5)
    (List.replicate 1024 0) 2
    (by decide) (by decide) rfl rfl (by decide) (by rw [List.length_replicate]; decide)
    (by rw [List.length_replicate]; decide)
    (fun d hd => by rw [List.eq_of_mem_replicate hd]; decide) (fun _ _ => rfl)
    (by decide) (by decide) (blankNor_timely 2 _ (by decide)) (blankNor_timely 2 _ (by decide))
    (by rw [List.length_replicate, List.length_replicate])⟩


/-! ## The pulls of `readData` -/

theorem readPulls_bounds (ps : Nat) (hps : 0 < ps) (hps32 : ps < WORD) : ∀ (n addr cur len : Nat)
    (p : Pull), addr < WORD → p ∈ readPulls ps n addr cur len →
    p.cursor + p.request = cur + len ∧ 1 ≤ p.request ∧ cur ≤ p.cursor ∧ p.addr < WORD ∧
    1 ≤ chunkCount ps p.addr p.request ∧ chunkCount ps p.addr p.request ≤ p.request := by
  intro n
  induction n with
  | zero => intro addr cur len p _ h; simp [readPulls] at h
  | succ n ih =>
    intro addr cur len p ha h
    rw [readPulls] at h
    by_cases hl : len > 0
    · rw [if_pos hl] at h
      obtain ⟨hc1, hc2⟩ := chunkCount_pos ps addr len hps hps32 ha hl
      rcases List.mem_cons.1 h with h1 | h1
      · subst h1; exact ⟨rfl, hl, Nat.le_refl _, ha, hc1, hc2⟩
      · obtain ⟨i1, i2, i3, i4, i5, i6⟩ := ih _ _ _ p (add32_lt _ _) h1
        exact ⟨by omega, i2, by omega, i4, i5, i6⟩
    · rw [if_neg hl] at h; simp at h

theorem readLoop_pulls {σ : Type} (P : Port σ) (f : SpiFlash) (hps : 0 < f.pageSize)
    (hps32 : f.pageSize < WORD) : ∀ (n addr : Nat) (b : List Nat) (cur len : Nat) (s : Sys σ),
    len ≤ n → addr < WORD →
    ∃ r rxs, readLoop P f n addr b cur len s = some r ∧
      r.2.trace = s.trace ++
        (readPulls f.pageSize n addr cur len).map (fun p => Event.transaction (readSegs f p)) ∧
      rxs.length = (readPulls f.pageSize n addr cur len).length ∧
      r.1 = storeAll b (((readPulls f.pageSize n addr cur len).map Pull.cursor).zip rxs) := by
  intro n
  induction n with
  | zero =>
    intro addr b cur len s hl _
    have : len = 0 := by omega
    subst this
    exact ⟨(b, s), [], by simp [readLoop], by simp [readPulls], rfl, by simp [readPulls, storeAll]⟩
  | succ n ih =>
    intro addr b cur len s hl ha
    by_cases hl0 : len > 0
    · obtain ⟨hc1, hc2⟩ := chunkCount_pos f.pageSize addr len hps hps32 ha hl0
      obtain ⟨r, rxs, e1, e2, e3, e4⟩ := ih (add32 addr (chunkCount f.pageSize addr len))
        (storeAt b cur (transact P [frameSeg f 0x03 addr,
          { tx := none, rx := true, len := len }] s).1)
        (cur + chunkCount f.pageSize addr len) (len - chunkCount f.pageSize addr len)
        (transact P [frameSeg f 0x03 addr, { tx := none, rx := true, len := len }] s).2
        (by omega) (add32_lt _ _)
      refine ⟨r, (transact P [frameSeg f 0x03 addr,
          { tx := none, rx := true, len := len }] s).1 :: rxs, ?_, ?_, ?_, ?_⟩
      · rw [readLoop, if_pos hl0, if_neg (by omega)]; exact e1
      · rw [e2, readPulls, if_pos hl0]; simp [transact, readSegs]
      · rw [readPulls, if_pos hl0]; simp [e3]
      · rw [e4, readPulls, if_pos hl0]; rfl
    · have : len = 0 := by omega
      subst this
      exact ⟨(b, s), [], by rw [readLoop, if_neg hl0], by simp [readPulls], by simp [readPulls],
        by simp [readPulls, storeAll]⟩

theorem readLoop_frame {σ : Type} (P : Port σ) (f : SpiFlash) (hps : 0 < f.pageSize)
    (hps32 : f.pageSize < WORD)
    (hexact : ∀ (a n : Nat) (d : σ),
      (P.transfer [frameSeg f 0x03 a, { tx := none, rx := true, len := n }] d).1.length = n) :
    ∀ (n addr : Nat) (b : List Nat) (cur len : Nat) (s : Sys σ) (r : List Nat × Sys σ),
    addr < WORD → cur + len ≤ b.length → readLoop P f n addr b cur len s = some r →
    r.1.length = b.length ∧ ∀ i, i < cur ∨ cur + len ≤ i → r.1[i]? = b[i]? := by
  intro n
  induction n with
  | zero =>
    intro addr b cur len s r _ _ h
    simp only [readLoop] at h
    split_ifs at h
    cases h
    exact ⟨rfl, fun _ _ => rfl⟩
  | succ n ih =>
    intro addr b cur len s r ha hb h
    rw [readLoop] at h
    by_cases hl0 : len > 0
    · rw [if_pos hl0, if_neg (by omega)] at h
      obtain ⟨hc1, hc2⟩ := chunkCount_pos f.pageSize addr len hps hps32 ha hl0
      have hlen : ((transact P [frameSeg f 0x03 addr,
          { tx := none, rx := true, len := len }] s).1).length = len := hexact addr len s.dev
      have hst : cur + ((transact P [frameSeg f 0x03 addr,
          { tx := none, rx := true, len := len }] s).1).length ≤ b.length := by
        rw [hlen]; exact hb
      obtain ⟨i1, i2⟩ := ih _ _ _ _ _ r (add32_lt _ _)
        (by rw [storeAt_length _ _ _ hst]; omega) h
      refine ⟨by rw [i1, storeAt_length _ _ _ hst], fun i hi => ?_⟩
      rw [i2 i (by omega), storeAt_getElem? _ _ _ hst]
      rcases hi with hi | hi
      · rw [if_pos hi]
      · rw [if_neg (by omega), if_neg (by rw [hlen]; omega)]
    · rw [if_neg hl0] at h
      cases h
      exact ⟨rfl, fun _ _ => rfl⟩

/-- Claim C16. For every page size from 1 on, every address and every length, `readData`
returns; its trace is one READ exchange per iteration, and the data pull of the iteration that
starts with the cursor at offset `o` requests exactly `len - o` bytes (the whole remaining
length, at least the page chunk by which the cursor then advances), so `o + requested = len`;
the received blocks are stored at these offsets. On a port that delivers as many bytes as
requested, the buffer keeps its length and no byte at or beyond `buf[len]` is changed. -/
theorem readData_pull_bounds {σ : Type} (P : Port σ) (f : SpiFlash) (hps : 1 ≤ f.pageSize)
    (hps32 : f.pageSize < WORD) (addr len : Nat) (buf : List Nat) (ha : addr < WORD)
    (s : Sys σ) :
    ∃ (r : List Nat × Sys σ) (rxs : List (List Nat)),
      readData P f addr buf len s = some r ∧
      r.2.trace = s.trace ++ (readPulls f.pageSize len addr 0 len).map (fun p =>
        Event.transaction
          [frameSeg f 0x03 p.addr, { tx := none, rx := true, len := p.request }]) ∧
      rxs.length = (readPulls f.pageSize len addr 0 len).length ∧
      r.1 = storeAll buf (((readPulls f.pageSize len addr 0 len).map Pull.cursor).zip rxs) ∧
      (∀ p ∈ readPulls f.pageSize len addr 0 len,
        p.cursor + p.request = len ∧ 1 ≤ p.request ∧
        chunkCount f.pageSize p.addr p.request ≤ p.request) ∧
      ((∀ (a n : Nat) (d : σ),
          (P.transfer [frameSeg f 0x03 a, { tx := none, rx := true, len := n }] d).1.length = n) →
        len ≤ buf.length →
        r.1.length = buf.length ∧ ∀ i, len ≤ i → r.1[i]? = buf[i]?) := by
  obtain ⟨r, rxs, e1, e2, e3, e4⟩ := readLoop_pulls P f hps hps32 len addr buf 0 len s
    (Nat.le_refl _) ha
  refine ⟨r, rxs, e1, e2, e3, e4, fun p hp => ?_, fun hexact hb => ?_⟩
  · obtain ⟨h1, h2, -, -, -, h6⟩ := readPulls_bounds f.pageSize hps hps32 len addr 0 len p ha hp
    exact ⟨by omega, h2, h6⟩
  · obtain ⟨h1, h2⟩ := readLoop_frame P f hps hps32 hexact len addr buf 0 len s r ha
      (by omega) e1
    exact ⟨h1, fun i hi => h2 i (Or.inr (by omega))⟩

theorem readData_pull_bounds_witness :
    1 ≤ SpiFlashDefault.pageSize ∧ 640 < WORD ∧
    readPulls SpiFlashDefault.pageSize 256 640 0 256 =
      [{ addr := 640, cursor := 0, request := 256 },
       { addr := 768, cursor := 128, request := 128 }] ∧
    ∃ (r : List Nat × Sys Nor) (rxs : List (List Nat)),
      readData norPort SpiFlashDefault 640 (List.replicate 300 0) 256 (boot blankNor) = some r ∧
      r.2.trace = (boot blankNor).trace ++
        (readPulls SpiFlashDefault.pageSize 256 640 0 256).map (fun p =>
          Event.transaction [frameSeg SpiFlashDefault 0x03 p.addr,
            { tx := none, rx := true, len := p.request }]) ∧
      rxs.length = (readPulls SpiFlashDefault.pageSize 256 640 0 256).length ∧
      r.1 = storeAll (List.replicate 300 0)
        (((readPulls SpiFlashDefault.pageSize 256 640 0 256).map Pull.cursor).zip rxs) ∧
      (∀ p ∈ readPulls SpiFlashDefault.pageSize 256 640 0 256,
        p.cursor + p.request = 256 ∧ 1 ≤ p.request ∧
        chunkCount SpiFlashDefault.pageSize p.addr p.request ≤ p.request) ∧
      ((∀ (a n : Nat) (d : Nor),
          (norPort.transfer [frameSeg SpiFlashDefault 0x03 a,
            { tx := none, rx := true, len := n }] d).1.length = n) →
        256 ≤ (List.replicate 300 0).length →
        r.1.length = (List.replicate 300 0).length ∧
        ∀ i, 256 ≤ i → r.1[i]? = (List.replicate 300 0)[i]?) :=
  ⟨by decide, by decide, by decide,
    readData_pull_bounds norPort SpiFlashDefault (by decide) (by decide) 640 256
      (List.replicate 300 0) (by decide) (boot blankNor)⟩


/-! ## Number of iterations of the chunk loops -/

theorem pageRemain_eq (ps addr : Nat) (hps : 0 < ps) (hps32 : ps < WORD) (ha : addr < WORD) :
    pageRemain ps addr = ps - addr % ps := by
  have h := chunkCount_eq ps addr WORD hps hps32 ha
  have h1 : addr % ps < ps := Nat.mod_lt _ hps
  have h2 : chunkCount ps addr WORD =
      if pageRemain ps addr > WORD then WORD else pageRemain ps addr := rfl
  have h4 : pageRemain ps addr < WORD := Nat.mod_lt _ (by decide)
  rw [h2, if_neg (by omega)] at h
  omega

theorem chunkCount_pageRemain (ps addr len : Nat) :
    chunkCount ps addr len = if pageRemain ps addr > len then len else pageRemain ps addr := rfl

theorem readPulls_length (ps : Nat) (hps : 0 < ps) (hps32 : ps < WORD) : ∀ (n addr cur : Nat)
    (buf : List Nat) (len : Nat), addr < WORD →
    (readPulls ps n addr cur len).length = (specChunks ps n addr buf len).length := by
  intro n
  induction n with
  | zero => intro addr cur buf len _; simp [readPulls, specChunks]
  | succ n ih =>
    intro addr cur buf len ha
    by_cases hl : len > 0
    · rw [readPulls, if_pos hl, specChunks_succ ps n addr buf len hl,
        chunkCount_eq ps addr len hps hps32 ha]
      simp only [List.length_cons]
      rw [ih _ _ _ _ (add32_lt _ _)]
    · have : len = 0 := by omega
      subst this
      simp [readPulls, specChunks]

theorem specChunks_length (ps : Nat) (hps : 0 < ps) : ∀ (n addr : Nat) (buf : List Nat)
    (len : Nat), len ≤ n → addr < WORD → addr + len ≤ WORD →
    (specChunks ps n addr buf len).length = iterCount ps addr len := by
  intro n
  induction n with
  | zero =>
    intro addr buf len hl _ _
    have : len = 0 := by omega
    subst this
    simp [specChunks, iterCount]
  | succ n ih =>
    intro addr buf len hl ha hnw
    have hm : addr % ps < ps := Nat.mod_lt _ hps
    by_cases hl0 : 0 < len
    · rw [specChunks_succ ps n addr buf len hl0, List.length_cons]
      by_cases hfit : len ≤ ps - addr % ps
      · rw [Nat.min_eq_left hfit, Nat.sub_self, specChunks_zero_len]
        unfold iterCount
        rw [if_neg (by omega)]
        symm
        apply Nat.div_eq_of_lt_le <;> simp <;> omega
      · have hmin : min len (ps - addr % ps) = ps - addr % ps := Nat.min_eq_right (by omega)
        rw [hmin]
        have hadd : add32 addr (ps - addr % ps) = addr + (ps - addr % ps) := by
          unfold add32 WORD at *; rw [Nat.mod_eq_of_lt (by omega)]
        rw [hadd, ih _ _ _ (by omega) (by unfold WORD at *; omega) (by omega)]
        unfold iterCount
        rw [if_neg (by omega), if_neg (by omega), add_sub_mod_self addr ps hps]
        have e : addr % ps + len + ps - 1 = (0 + (len - (ps - addr % ps)) + ps - 1) + ps := by
          omega
        rw [e, Nat.add_div_right _ hps]
    · have : len = 0 := by omega
      subst this
      simp [specChunks, iterCount]

theorem exchanges_readPulls (f : SpiFlash) (ps : List Pull) :
    exchanges (ps.map (fun p => Event.transaction (readSegs f p))) = ps.map (readSegs f) ∧
    exchangesOf 0x03 (ps.map (fun p => Event.transaction (readSegs f p))) = ps.map (readSegs f) := by
  induction ps with
  | nil => exact ⟨rfl, rfl⟩
  | cons p ps ih =>
    have ho : (Event.transaction (readSegs f p)).opcode = some 0x03 := frameSeg_opcode f _ _ _
    constructor
    · simp [exchanges, ih.1]
    · have := ih.2
      simp only [exchangesOf] at this ⊢
      simp [exchanges, ih.1, ho] at this ⊢
      exact this

theorem exchangesOf_wren_writeShape (f : SpiFlash) (cs : List Chunk) (ev : List Event)
    (h : WriteShape f cs ev) : (exchangesOf 0x06 ev).length = cs.length := by
  induction h with
  | nil => rfl
  | cons c cs w ev hw _ ih =>
    have h2 : exchangesOf 0x06 [Event.transaction (programSegs f c)] = [] := by
      simp [exchangesOf, exchanges, programSegs_opcode]
    have h1 : exchangesOf 0x06 (wrenEvents f) = [wrenSegs] := by
      simp only [exchangesOf, exchanges_wren]; rfl
    simp only [exchangesOf_append, h1, h2, exchangesOf_wait 6 (by decide) w hw, List.append_nil,
      List.length_append, List.length_singleton, List.length_cons, List.length_nil, ih]
    omega

/-- Claim C17. With `size_t` as 32-bit unsigned, for every page size from 1 on and every
address the chunk length `((addr - addr % pageSize) + pageSize) - addr` (mod `2^32`) is
`pageSize - addr % pageSize` and lies in `[1, pageSize]`, also when the sum overflows. For
`addr + len ≤ 2^32`, `readData` returns after exactly `iterCount` READ exchanges, and
`writeData` (on a port whose completion waits end) returns after exactly `iterCount`
write-enable and `iterCount` PAGE_PROGRAM exchanges, where `iterCount` is
`ceil((addr mod pageSize + len) / pageSize)` for `len > 0` and 0 for `len = 0`. -/
theorem chunk_loop_count {σ : Type} (P : Port σ) (f : SpiFlash) (hlive : Live P f)
    (hps : 1 ≤ f.pageSize) (hps32 : f.pageSize < WORD) (addr len : Nat) (buf out : List Nat)
    (ha : addr < WORD) (hnw : addr + len ≤ WORD) (s : Sys σ) :
    pageRemain f.pageSize addr = f.pageSize - addr % f.pageSize ∧
    1 ≤ pageRemain f.pageSize addr ∧ pageRemain f.pageSize addr ≤ f.pageSize ∧
    (∃ (r : List Nat × Sys σ) (ev : List Event),
      readData P f addr out len s = some r ∧ r.2.trace = s.trace ++ ev ∧
      (exchanges ev).length = iterCount f.pageSize addr len ∧
      (exchangesOf 0x03 ev).length = iterCount f.pageSize addr len) ∧
    (∃ N, ∀ fuel, N ≤ fuel → ∃ (r : Sys σ) (ev : List Event),
      writeData P f fuel addr buf len s = some r ∧ r.trace = s.trace ++ ev ∧
      (exchangesOf 0x06 ev).length = iterCount f.pageSize addr len ∧
      (exchangesOf 0x02 ev).length = iterCount f.pageSize addr len) ∧
    (len = 0 → iterCount f.pageSize addr len = 0) ∧
    (0 < len → iterCount f.pageSize addr len =
      (addr % f.pageSize + len + f.pageSize - 1) / f.pageSize) := by
  have hm : addr % f.pageSize < f.pageSize := Nat.mod_lt _ hps
  have hpr := pageRemain_eq f.pageSize addr hps hps32 ha
  have hlen := specChunks_length f.pageSize hps len addr buf len (Nat.le_refl _) ha hnw
  refine ⟨hpr, by omega, by omega, ?_, ?_, fun h => by simp [iterCount, h],
    fun h => by rw [iterCount, if_neg (by omega)]⟩
  · obtain ⟨r, rxs, e1, e2, -, -⟩ := readLoop_pulls P f hps hps32 len addr out 0 len s
      (Nat.le_refl _) ha
    have hx := exchanges_readPulls f (readPulls f.pageSize len addr 0 len)
    have hl := readPulls_length f.pageSize hps hps32 len addr 0 buf len ha
    exact ⟨r, _, e1, e2, by rw [hx.1, List.length_map, hl, hlen],
      by rw [hx.2, List.length_map, hl, hlen]⟩
  · obtain ⟨N, r, hN⟩ := writeData_total P f hlive hps hps32 addr buf len s ha
    refine ⟨N, fun fuel hf => ?_⟩
    obtain ⟨w, ev, hw, t1, t2⟩ := writeData_shape P f hps hps32 addr buf len s r fuel ha
      (hN fuel hf)
    refine ⟨r, w ++ ev, hN fuel hf, by rw [t1, List.append_assoc], ?_, ?_⟩
    · rw [exchangesOf_append, exchangesOf_wait 6 (by decide) w hw, List.nil_append,
        exchangesOf_wren_writeShape f _ _ t2, hlen]
    · rw [exchangesOf_append, exchangesOf_wait 2 (by decide) w hw, List.nil_append,
        exchangesOf_writeShape f _ _ t2, List.length_map, hlen]

theorem chunk_loop_count_witness :
    Live norPort SpiFlashDefault ∧ 4294967295 + 1 ≤ WORD ∧
    add32 (sub32 4294967295 (4294967295 % SpiFlashDefault.pageSize)) SpiFlashDefault.pageSize = 0 ∧
    iterCount SpiFlashDefault.pageSize 4294967295 1 = 1 ∧
    iterCount SpiFlashDefault.pageSize 640 256 = 2 ∧
    pageRemain SpiFlashDefault.pageSize 4294967295 =
      SpiFlashDefault.pageSize - 4294967295 % SpiFlashDefault.pageSize ∧
    ∃ (r : List Nat × Sys Nor) (ev : List Event),
      readData norPort SpiFlashDefault 4294967295 [0] 1 (boot blankNor) = some r ∧
      r.2.trace = (boot blankNor).trace ++ ev ∧
      (exchanges ev).length = iterCount SpiFlashDefault.pageSize 4294967295 1 ∧
      (exchangesOf 0x03 ev).length = iterCount SpiFlashDefault.pageSize 4294967295 1 :=
  ⟨norPort_live _, by decide, by decide, by decide, by decide,
    (chunk_loop_count norPort SpiFlashDefault (norPort_live _) (by decide) (by decide)
      4294967295 1 [7] [0] (by decide) (by decide) (boot blankNor)).1,
    (chunk_loop_count norPort SpiFlashDefault (norPort_live _) (by decide) (by decide)
      4294967295 1 [7] [0] (by decide) (by decide) (boot blankNor)).2.2.2.1⟩


/-! ## The write-progress monitor on a scripted chip -/

theorem script_isWriteInProgress (s : Sys Script) :
    isWriteInProgress scriptPort s =
      (decide (s.dev.status s.dev.polls &&& STATUS_WIP ≠ 0),
       { dev := { s.dev with polls := s.dev.polls + 1 }, trace := s.trace ++ [statusEvent] }) := by
  simp [isWriteInProgress, readStatus, transact, scriptPort, statusEvent]

theorem script_sysMillis (s : Sys Script) :
    sysMillis scriptPort s =
      (s.dev.clock s.dev.reads % WORD,
       { dev := { s.dev with reads := s.dev.reads + 1 }, trace := s.trace }) := rfl

theorem script_waitLoop (T q0 : Nat) (status clock : Nat → Nat) : ∀ (j : Nat) (s : Sys Script),
    s.dev.status = status → s.dev.clock = clock →
    (∀ i, i < j → status (s.dev.polls + i) &&& STATUS_WIP ≠ 0 ∧
      sub32 (clock (s.dev.reads + i)) (clock q0) < T) →
    (status (s.dev.polls + j) &&& STATUS_WIP = 0 ∨
      T ≤ sub32 (clock (s.dev.reads + j)) (clock q0)) →
    ∀ fuel, j + 1 ≤ fuel →
    ∃ r, waitLoop scriptPort fuel (clock q0 % WORD) T s = some r ∧
      r.trace = s.trace ++ ((List.replicate j (busyPoll T)).flatten ++ [statusEvent]) ∧
      r.dev.polls = s.dev.polls + j + 1 ∧ r.dev.status = status ∧ r.dev.clock = clock := by
  intro j
  induction j with
  | zero =>
    intro s hs hc _ hstop fuel hf
    obtain ⟨k, rfl⟩ : ∃ k, fuel = k + 1 := ⟨fuel - 1, by omega⟩
    rw [waitLoop]
    simp only [script_isWriteInProgress, script_sysMillis, hs, hc, Nat.add_zero] at hstop ⊢
    by_cases hw : status s.dev.polls &&& STATUS_WIP = 0
    · simp [hw, hs, hc]
    · have ht : ¬ sub32 (clock s.dev.reads % WORD) (clock q0 % WORD) < T := by
        rw [sub32_mod]; rcases hstop with h | h
        · exact absurd h hw
        · omega
      simp [hw, ht, hs, hc]
  | succ j ih =>
    intro s hs hc hbusy hstop fuel hf
    obtain ⟨k, rfl⟩ : ∃ k, fuel = k + 1 := ⟨fuel - 1, by omega⟩
    obtain ⟨hw, ht⟩ := hbusy 0 (by omega)
    rw [Nat.add_zero] at hw ht
    have hw2 : s.dev.status s.dev.polls &&& STATUS_WIP ≠ 0 := by rw [hs]; exact hw
    have ht2 : sub32 (s.dev.clock s.dev.reads % WORD) (clock q0 % WORD) < T := by
      rw [hc, sub32_mod]; exact ht
    have key : ∀ s3 : Sys Script,
        s3.dev = { s.dev with polls := s.dev.polls + 1, reads := s.dev.reads + 1 } →
        ∃ r, waitLoop scriptPort k (clock q0 % WORD) T s3 = some r ∧
          r.trace = s3.trace ++ ((List.replicate j (busyPoll T)).flatten ++ [statusEvent]) ∧
          r.dev.polls = s.dev.polls + (j + 1) + 1 ∧ r.dev.status = status ∧
          r.dev.clock = clock := by
      intro s3 h3
      obtain ⟨r, e1, e2, e3, e4, e5⟩ := ih s3 (by rw [h3]; exact hs) (by rw [h3]; exact hc)
        (fun i hi => by
          have := hbusy (i + 1) (by omega)
          rw [h3]; simpa [Nat.add_assoc, Nat.add_comm 1 i] using this)
        (by rw [h3]; simpa [Nat.add_assoc, Nat.add_comm 1 j] using hstop) k (by omega)
      exact ⟨r, e1, e2, by rw [e3, h3]; simp; omega, e4, e5⟩
    rw [waitLoop]
    simp only [script_isWriteInProgress, script_sysMillis]
    simp only [hw2, ne_eq, not_false_eq_true, decide_True, if_true]
    rw [if_pos ht2]
    by_cases h5 : T > 500
    · obtain ⟨r, e1, e2, e3, e4, e5⟩ := key (sysDelay scriptPort 1
        { dev := { s.dev with polls := s.dev.polls + 1, reads := s.dev.reads + 1 },
          trace := s.trace ++ [statusEvent] }) rfl
      refine ⟨r, by rw [if_pos h5]; exact e1, ?_, e3, e4, e5⟩
      rw [e2]; simp [sysDelay, busyPoll, h5, List.replicate_succ]
    · obtain ⟨r, e1, e2, e3, e4, e5⟩ := key
        { dev := { s.dev with polls := s.dev.polls + 1, reads := s.dev.reads + 1 },
          trace := s.trace ++ [statusEvent] } rfl
      refine ⟨r, by rw [if_neg h5]; exact e1, ?_, e3, e4, e5⟩
      rw [e2]; simp [busyPoll, h5, List.replicate_succ]

theorem exchanges_busyPolls (T j : Nat) :
    exchanges ((List.replicate j (busyPoll T)).flatten ++ [statusEvent])
      = List.replicate (j + 1) statusSegs := by
  induction j with
  | zero => rfl
  | succ j ih =>
    rw [List.replicate_succ, List.flatten_cons, List.append_assoc, exchanges_append, ih]
    unfold busyPoll
    split_ifs <;> simp [exchanges, statusEvent, List.replicate_succ]

/-- Claim C15. Over a scripted chip and clock, let `T` be the effective timeout of
`waitForWriteComplete(t)` and `j` the first poll that stops the wait (status bit 0 clear,
or elapsed time since entry at least `T`). Then the wait returns, in both cases in the same
way (the function has no result and the device is only advanced), after exactly `j + 1`
status reads and no other exchange; each of the `j` polls after which the wait goes on is
followed by `delay(1)` if and only if `T > 500`; when the first status read has bit 0 clear
the wait is exactly one status read. -/
theorem waitForWriteComplete_monitor (f : SpiFlash) (t : Nat) (d : Script) (tr : List Event)
    (j : Nat) (hgo : ∀ i, i < j → ¬ d.stops (effectiveTimeout f t) i)
    (hstop : d.stops (effectiveTimeout f t) j) :
    ∀ fuel, j + 1 ≤ fuel → ∃ r,
      waitForWriteComplete scriptPort f fuel t { dev := d, trace := tr } = some r ∧
      r.trace = tr ++ ((List.replicate j (busyPoll (effectiveTimeout f t))).flatten
        ++ [statusEvent]) ∧
      exchanges ((List.replicate j (busyPoll (effectiveTimeout f t))).flatten ++ [statusEvent])
        = List.replicate (j + 1) statusSegs ∧
      (busyPoll (effectiveTimeout f t) = [statusEvent, Event.delay 1] ↔
        effectiveTimeout f t > 500) ∧
      (busyPoll (effectiveTimeout f t) = [statusEvent] ↔ ¬ effectiveTimeout f t > 500) ∧
      r.dev.polls = d.polls + j + 1 ∧ r.dev.status = d.status ∧ r.dev.clock = d.clock ∧
      (d.status d.polls &&& STATUS_WIP = 0 → r.trace = tr ++ [statusEvent]) := by
  intro fuel hf
  obtain ⟨r, e1, e2, e3, e4, e5⟩ := script_waitLoop (effectiveTimeout f t) d.reads d.status
    d.clock j (sysMillis scriptPort { dev := d, trace := tr }).2 rfl rfl
    (fun i hi => by
      have h := hgo i hi
      unfold Script.stops at h
      simp only [script_sysMillis]
      constructor
      · intro hc; exact h (Or.inl hc)
      · by_contra hc; exact h (Or.inr (by omega)))
    (by simpa [Script.stops, script_sysMillis] using hstop) fuel hf
  refine ⟨r, e1, by simpa [script_sysMillis] using e2, exchanges_busyPolls _ _, ?_, ?_,
    by simpa [script_sysMillis] using e3, e4, e5, fun h0 => ?_⟩
  · unfold busyPoll; split_ifs with h <;> simp [h]
  · unfold busyPoll; split_ifs with h <;> simp [h]
  · have hj : j = 0 := by
      by_contra hne
      exact hgo 0 (by omega) (Or.inl (by simpa using h0))
    subst hj
    simpa [script_sysMillis] using e2

theorem waitForWriteComplete_monitor_witness :
    (∀ i, i < 3 → ¬ Script.stops
      { status := fun n => if n < 3 then 3 else 2, clock := fun n => n, polls := 0, reads := 0 }
      (effectiveTimeout SpiFlashDefault 0) i) ∧
    (∀ fuel, 3 + 1 ≤ fuel → ∃ r,
      waitForWriteComplete scriptPort SpiFlashDefault fuel 0
        { dev := { status := fun n => if n < 3 then 3 else 2, clock := fun n => n,
                   polls := 0, reads := 0 }, trace := [] } = some r ∧
      r.trace = [statusEvent, statusEvent, statusEvent, statusEvent]) ∧
    (∀ fuel, 1 + 1 ≤ fuel → ∃ r,
      waitForWriteComplete scriptPort SpiFlashDefault fuel 1000
        { dev := { status := fun _ => 1, clock := fun n => 600 * n, polls := 0, reads := 0 },
          trace := [] } = some r ∧
      r.trace = [statusEvent, Event.delay 1, statusEvent]) :=
  ⟨by decide,
   fun fuel hf =>
    (waitForWriteComplete_monitor SpiFlashDefault 0
      { status := fun n => if n < 3 then 3 else 2, clock := fun n => n, polls := 0, reads := 0 }
      [] 3 (by decide) (by decide) fuel hf).imp (fun _ h => ⟨h.1, h.2.1⟩),
   fun fuel hf =>
    (waitForWriteComplete_monitor SpiFlashDefault 1000
      { status := fun _ => 1, clock := fun n => 600 * n, polls := 0, reads := 0 }
      [] 1 (by decide) (by decide) fuel hf).imp (fun _ h => ⟨h.1, h.2.1⟩)⟩


/-! ## Frame effect of a write -/

theorem nor_readData_idle (f : SpiFlash) (s : Sys Nor) (a len : Nat) (out : List Nat)
    (hps : 1 ≤ f.pageSize) (hps32 : f.pageSize < WORD) (hbusy : s.dev.busy = 0)
    (hmode : s.dev.addr4 = f.addr4byte) (ha : a < WORD) (hchip : a + len ≤ s.dev.capacity)
    (hwidth : a + len ≤ addrWidth f) (hout : len ≤ out.length) :
    ∃ r, readData norPort f a out len s = some r ∧ r.1.length = out.length ∧
      (∀ i, i < len → r.1[i]? = some (s.dev.flash (a + i))) ∧
      r.2.dev.flash = s.dev.flash ∧ r.2.dev.busy = 0 ∧ r.2.dev.addr4 = f.addr4byte ∧
      r.2.dev.capacity = s.dev.capacity := by
  have hww := addrWidth_le f
  obtain ⟨r, e1, e2, -, e4, -, e6, e7⟩ := readLoop_correct norPort f Nor.flash
    (fun d => d.busy = 0 ∧ d.addr4 = f.addr4byte ∧ d.capacity = s.dev.capacity)
    (min s.dev.capacity (addrWidth f)) (by omega) hps hps32
    (fun d x n hd hn =>
      have h := nor_read f d hd.1 hd.2.1 x n (by rw [hd.2.2]; omega) (by omega)
      ⟨h.1, by rw [h.2], by rw [h.2]; exact hd⟩)
    len a out 0 len s (Nat.le_refl _) ⟨hbusy, hmode, rfl⟩ ha (by omega) (by omega)
  exact ⟨r, e1, e2, fun i hi => by simpa using e4 i hi, e6, e7.1, e7.2.1, e7.2.2⟩

theorem list_eq_of_getElem? (l data : List Nat) (hlen : l.length = data.length)
    (h : ∀ i, i < data.length → l[i]? = some (data.getD i 0)) : l = data := by
  apply List.ext_getElem?
  intro i
  by_cases hi : i < data.length
  · rw [h i hi, List.getElem?_eq_getElem hi]
    simp [List.getD, List.getElem?_eq_getElem hi]
  · rw [List.getElem?_eq_none (by omega), List.getElem?_eq_none (by omega)]

theorem getD_byte (data : List Nat) (hb : ∀ b ∈ data, b < 256) (i : Nat) (hi : i < data.length) :
    data.getD i 0 < 256 := by
  have : data.getD i 0 = data[i] := by simp [List.getD, List.getElem?_eq_getElem hi]
  rw [this]; exact hb _ (List.getElem_mem _)

/-- Two writes on either side of the 16 MiB boundary, then the two reads. -/
theorem nor_boundary_writes (f : SpiFlash) (c : Nor) (tr : List Event) (B : Nat)
    (h4 : f.addr4byte = true) (hps : 1 ≤ f.pageSize) (hps32 : f.pageSize < WORD)
    (hpage : c.pageSize = f.pageSize) (hmode : c.addr4 = true) (hbusy : c.busy ≤ B)
    (hpolls : c.programPolls ≤ B) (hwait : Timely c.clock B (effectiveTimeout f 0))
    (hprog : Timely c.clock B (effectiveTimeout f f.pageProgramTimeoutMs))
    (d1 d2 out1 out2 : List Nat) (hd1 : d1.length = 256) (hd2 : d2.length = 256)
    (ho1 : out1.length = 256) (ho2 : out2.length = 256) (hb1 : ∀ b ∈ d1, b < 256)
    (hb2 : ∀ b ∈ d2, b < 256) (hcap : 16777216 + 256 ≤ c.capacity)
    (her : ∀ x, 16777216 - 256 ≤ x → x < 16777216 + 256 → c.flash x = 0xFF) :
    ∃ N, ∀ fuel, N ≤ fuel → ∃ (w1 w2 : Sys Nor) (r1 r2 : List Nat × Sys Nor),
      writeData norPort f fuel (16777216 - 256) d1 256 { dev := c, trace := tr } = some w1 ∧
      writeData norPort f fuel 16777216 d2 256 w1 = some w2 ∧
      readData norPort f (16777216 - 256) out1 256 w2 = some r1 ∧ r1.1 = d1 ∧
      readData norPort f 16777216 out2 256 r1.2 = some r2 ∧ r2.1 = d2 := by
  have hw : addrWidth f = 4294967296 := by simp [addrWidth, h4]
  have hm : c.addr4 = f.addr4byte := hmode.trans h4.symm
  obtain ⟨w1, ⟨N1, h1⟩, b1, s1, i1, o1⟩ := nor_writeData f c tr (16777216 - 256) d1 B hps hps32
    hpage hm (by decide) (by rw [hd1]; omega) (by rw [hd1, hw]; decide) hbusy hpolls hwait hprog
  obtain ⟨w2, ⟨N2, h2⟩, b2, s2, i2, o2⟩ := nor_writeData f w1.dev w1.trace 16777216 d2 B hps
    hps32 (by rw [s1.2.1]; exact hpage) (by rw [s1.2.2.2.1]; exact hm) (by decide)
    (by rw [hd2, s1.1]; omega) (by rw [hd2, hw]; decide) (by omega)
    (by rw [s1.2.2.1]; exact hpolls) (by rw [s1.2.2.2.2]; exact hwait)
    (by rw [s1.2.2.2.2]; exact hprog)
  rw [hd1] at h1 i1 o1
  rw [hd2] at h2 i2 o2
  obtain ⟨r1, e1, l1, g1, fl1, rb1, rm1, rc1⟩ := nor_readData_idle f w2 (16777216 - 256) 256 out1
    hps hps32 b2 (by rw [s2.2.2.2.1, s1.2.2.2.1]; exact hm) (by decide)
    (by rw [s2.1, s1.1]; omega) (by rw [hw]; decide) (by omega)
  obtain ⟨r2, e2, l2, g2, -, -, -, -⟩ := nor_readData_idle f r1.2 16777216 256 out2
    hps hps32 rb1 rm1 (by decide) (by rw [rc1, s2.1, s1.1]; omega) (by rw [hw]; decide)
    (by omega)
  refine ⟨max N1 N2, fun fuel hf => ⟨w1, w2, r1, r2, h1 fuel (by omega), h2 fuel (by omega),
    e1, ?_, e2, ?_⟩⟩
  · apply list_eq_of_getElem? _ _ (by omega)
    intro i hi
    rw [hd1] at hi
    rw [g1 i hi, o2 _ (Or.inl (by omega)), i1 i hi, her _ (by omega) (by omega),
      and_erased _ (getD_byte d1 hb1 i (by omega))]
  · apply list_eq_of_getElem? _ _ (by omega)
    intro i hi
    rw [hd2] at hi
    rw [g2 i hi, fl1, i2 i hi, o1 _ (Or.inr (by omega)), her _ (by omega) (by omega),
      and_erased _ (getD_byte d2 hb2 i (by omega))]

/-- Claim C14. Over the NOR flash model with 4-byte addressing enabled on the driver and the
chip, for every `a` and `l` with `a + l ≤ 2^32` inside the chip, `writeData(a, data, l)`
returns and changes no flash byte outside `[a, a+l)`. Hence, on flash erased around the
16 MiB boundary, after `writeData(2^24 - 256, d1, 256)` and `writeData(2^24, d2, 256)` the
call `readData(2^24 - 256, .., 256)` returns `d1` and `readData(2^24, .., 256)` returns
`d2`. -/
theorem write_frame_effect (f : SpiFlash) (c : Nor) (tr : List Event) (a : Nat)
    (data : List Nat) (B : Nat) (h4 : f.addr4byte = true) (hps : 1 ≤ f.pageSize)
    (hps32 : f.pageSize < WORD) (hpage : c.pageSize = f.pageSize) (hmode : c.addr4 = true)
    (ha : a < WORD) (hchip : a + data.length ≤ c.capacity) (hnw : a + data.length ≤ 2 ^ 32)
    (hbusy : c.busy ≤ B) (hpolls : c.programPolls ≤ B)
    (hwait : Timely c.clock B (effectiveTimeout f 0))
    (hprog : Timely c.clock B (effectiveTimeout f f.pageProgramTimeoutMs)) :
    (∃ N, ∀ fuel, N ≤ fuel → ∃ w,
      writeData norPort f fuel a data data.length { dev := c, trace := tr } = some w ∧
      ∀ x, x < a ∨ a + data.length ≤ x → w.dev.flash x = c.flash x) ∧
    (∀ d1 d2 out1 out2 : List Nat, d1.length = 256 → d2.length = 256 → out1.length = 256 →
      out2.length = 256 → (∀ b ∈ d1, b < 256) → (∀ b ∈ d2, b < 256) →
      16777216 + 256 ≤ c.capacity →
      (∀ x, 16777216 - 256 ≤ x → x < 16777216 + 256 → c.flash x = 0xFF) →
      ∃ N, ∀ fuel, N ≤ fuel → ∃ (w1 w2 : Sys Nor) (r1 r2 : List Nat × Sys Nor),
        writeData norPort f fuel (16777216 - 256) d1 256 { dev := c, trace := tr } = some w1 ∧
        writeData norPort f fuel 16777216 d2 256 w1 = some w2 ∧
        readData norPort f (16777216 - 256) out1 256 w2 = some r1 ∧ r1.1 = d1 ∧
        readData norPort f 16777216 out2 256 r1.2 = some r2 ∧ r2.1 = d2) := by
  constructor
  · obtain ⟨w, ⟨N, hN⟩, -, -, -, o1⟩ := nor_writeData f c tr a data B hps hps32 hpage
      (hmode.trans h4.symm) ha hchip (by simpa [addrWidth, h4] using hnw) hbusy hpolls hwait hprog
    exact ⟨N, fun fuel hf => ⟨w, hN fuel hf, o1⟩⟩
  · intro d1 d2 out1 out2 hd1 hd2 ho1 ho2 hb1 hb2 hcap her
    exact nor_boundary_writes f c tr B h4 hps hps32 hpage hmode hbusy hpolls hwait hprog
      d1 d2 out1 out2 hd1 hd2 ho1 ho2 hb1 hb2 hcap her

theorem write_frame_effect_witness :
    SpiFlash4Byte.addr4byte = true ∧ bigNor.addr4 = true ∧
    (16777216 - 256) + (List.range 256).length ≤ bigNor.capacity ∧
    ∃ N, ∀ fuel, N ≤ fuel → ∃ (w1 w2 : Sys Nor) (r1 r2 : List Nat × Sys Nor),
      writeData norPort SpiFlash4Byte fuel (16777216 - 256) (List.range 256) 256
        { dev := bigNor, trace := [] } = some w1 ∧
      writeData norPort SpiFlash4Byte fuel 16777216 (List.replicate 256 0x5A) 256 w1 = some w2 ∧
      readData norPort SpiFlash4Byte (16777216 - 256) (List.replicate 256 0) 256 w2 = some r1 ∧
      r1.1 = List.range 256 ∧
      readData norPort SpiFlash4Byte 16777216 (List.replicate 256 0) 256 r1.2 = some r2 ∧
      r2.1 = List.replicate 256 0x5A :=
  ⟨rfl, rfl, by rw [List.length_range]; decide,
    (write_frame_effect SpiFlash4Byte bigNor [] (16777216 - 256) (List.range 256) 2 rfl
      (by decide) (by decide) rfl rfl (by decide) (by rw [List.length_range]; decide)
      (by rw [List.length_range]; decide) (by decide) (by decide)
      (blankNor_timely 2 _ (by decide)) (blankNor_timely 2 _ (by decide))).2
      (List.range 256) (List.replicate 256 0x5A) (List.replicate 256 0) (List.replicate 256 0)
      (List.length_range 256) (List.length_replicate 256 _) (List.length_replicate 256 _)
      (List.length_replicate 256 _) (fun b hb => List.mem_range.1 hb)
      (fun b hb => by rw [List.eq_of_mem_replicate hb]; decide) (by decide)
      (fun _ _ _ => rfl)⟩


/-! ## The default timeout -/

/-- Claim C12 at its failing input. `waitForWriteComplete()` with no timeout (or 0) uses
`waitWriteCompletionTimeoutMs`, and a non-zero timeout is used as given (500 gives 500
polls on the chip that never finishes); but the default value of
`waitWriteCompletionTimeoutMs` is 10 in every profile, not the documented 500: on the chip
that never finishes the default wait gives up after 10 ms. -/
theorem default_wait_is_10ms :
    (∀ f ∈ profiles, f.waitWriteCompletionTimeoutMs = 10 ∧ effectiveTimeout f 0 = 10 ∧
      effectiveTimeout f 500 = 500) ∧
    (∀ fuel, 10 ≤ fuel → ∃ r w,
      waitForWriteComplete stuckPort SpiFlashDefault fuel 0 (boot 0) = some r ∧
      r.trace = (boot 0).trace ++ w ∧ exchanges w = List.replicate 10 statusSegs) ∧
    (∀ fuel, 500 ≤ fuel → ∃ r w,
      waitForWriteComplete stuckPort SpiFlashDefault fuel 500 (boot 0) = some r ∧
      r.trace = (boot 0).trace ++ w ∧ exchanges w = List.replicate 500 statusSegs) := by
  refine ⟨by decide, fun fuel hf => ?_, fun fuel hf => ?_⟩
  · have h := stuck_wait SpiFlashDefault SpiFlashDefault.waitWriteCompletionTimeoutMs
      (by decide) (by decide) (boot 0) fuel hf
    rw [← waitForWriteComplete_default] at h
    exact h
  · exact stuck_wait SpiFlashDefault 500 (by decide) (by decide) (boot 0) fuel hf

/-! ## The write-enable protocol -/

theorem wrenScan_polls (k : Nat) (b : Bool) (rest : List (List Seg)) :
    wrenScan b (List.replicate (k + 1) statusSegs ++ rest) = wrenScan false rest := by
  induction k generalizing b with
  | zero => rfl
  | succ k ih =>
    rw [List.replicate_succ, List.cons_append, wrenScan]
    rw [if_neg (by decide)]
    exact ih _

theorem wrenScan_wait (b : Bool) (w : List Event) (hw : IsWaitTrace w) (rest : List (List Seg)) :
    wrenScan b (exchanges w ++ rest) = wrenScan false rest := by
  obtain ⟨k, hk, e⟩ := exchanges_wait w hw
  obtain ⟨j, rfl⟩ : ∃ j, k = j + 1 := ⟨k - 1, by omega⟩
  rw [e, wrenScan_polls]

theorem wrenScan_command (b : Bool) (cmd : List Seg)
    (hc : isMutating (Event.transaction cmd) = true) (rest : List (List Seg)) :
    wrenScan b (wrenSegs :: cmd :: rest) = wrenScan false rest := by
  rw [wrenScan, if_neg (by decide), wrenScan, if_pos hc]
  simp

theorem wrenScan_writeShape (f : SpiFlash) (cs : List Chunk) (ev : List Event)
    (h : WriteShape f cs ev) : ∀ b, wrenScan b (exchanges ev) = true := by
  induction h with
  | nil => intro b; rfl
  | cons c cs w ev hw _ ih =>
    intro b
    rw [exchanges_append, exchanges_append, exchanges_append, exchanges_wren]
    simp only [exchanges, List.singleton_append, List.cons_append, List.nil_append,
      List.append_assoc]
    rw [wrenScan_command _ _ (by simp [isMutating, programSegs_opcode]), wrenScan_wait _ w hw]
    exact ih false

/-- The write-enable protocol holds for `writeData`, `sectorErase`, `blockErase` and
`chipErase`, whenever they return; `writeData` sends one write-enable per chunk. -/
theorem wrenProtocol_holds {σ : Type} (P : Port σ) (f : SpiFlash) (hps : 0 < f.pageSize)
    (hps32 : f.pageSize < WORD) (addr : Nat) (buf : List Nat) (bufLen : Nat) (s r : Sys σ)
    (fuel : Nat) (ha : addr < WORD)
    (h : writeData P f fuel addr buf bufLen s = some r ∨ sectorErase P f fuel addr s = some r ∨
      blockErase P f fuel addr s = some r ∨ chipErase P f fuel s = some r) :
    ∃ ev, r.trace = s.trace ++ ev ∧ WrenProtocol ev := by
  have herase : ∀ (cmd : List Seg) (t : Nat), isMutating (Event.transaction cmd) = true →
      (waitForWriteComplete P f fuel 0 s).bind (fun s1 =>
        waitForWriteComplete P f fuel t (transact P cmd (writeEnable P f s1)).2) = some r →
      ∃ ev, r.trace = s.trace ++ ev ∧ WrenProtocol ev := by
    intro cmd t hc he
    obtain ⟨s1, h1, h2⟩ := Option.bind_eq_some.1 he
    obtain ⟨w1, hw1, t1⟩ := waitForWriteComplete_trace P f fuel 0 s s1 h1
    obtain ⟨w2, hw2, t2⟩ := waitForWriteComplete_trace P f fuel t _ r h2
    refine ⟨w1 ++ (wrenEvents f ++ (Event.transaction cmd :: w2)), ?_, ?_⟩
    · rw [t2]; simp [transact, writeEnable_trace, t1]
    · unfold WrenProtocol
      rw [exchanges_append, exchanges_append, exchanges_wren, wrenScan_wait _ w1 hw1]
      simp only [exchanges, List.singleton_append]
      rw [wrenScan_command _ _ hc]
      have := wrenScan_wait false w2 hw2 []
      simpa [wrenScan] using this
  rcases h with h | h | h | h
  · obtain ⟨w, ev, hw, e1, e2⟩ := writeData_shape P f hps hps32 addr buf bufLen s r fuel ha h
    refine ⟨w ++ ev, by rw [e1, List.append_assoc], ?_⟩
    unfold WrenProtocol
    rw [exchanges_append, wrenScan_wait _ w hw]
    exact wrenScan_writeShape f _ _ e2 false
  · rw [sectorErase_bind] at h
    exact herase _ _ (by simp [isMutating, frameSeg_opcode]) h
  · rw [blockErase_bind] at h
    exact herase _ _ (by simp [isMutating, frameSeg_opcode]) h
  · rw [chipErase_bind] at h
    exact herase _ _ (by decide) h

/-- Claim C11 at its failing input. `writeStatus(0xFC)` on an idle chip reads the status
register once and sends the status-register write `[0x01, 0xFC]` with no write-enable
exchange `[0x06]` before it; the chip, whose write-enable latch is down, ignores the
command and its status register stays as it was. -/
theorem writeStatus_no_write_enable :
    ∃ r, writeStatus norPort SpiFlashDefault 1 0xFC (boot blankNor) = some r ∧
      r.trace = [statusEvent,
        Event.transaction [{ tx := some [0x01, 0xFC], rx := false, len := 2 }]] ∧
      exchangesOf 0x06 r.trace = [] ∧ ¬ WrenProtocol r.trace ∧
      r.dev.status = blankNor.status ∧ r.dev.srHigh = 0 :=
  ⟨_, rfl, rfl, rfl, by decide, rfl, rfl⟩

/-! ## Addressing mode after a reset -/

/-- Claim C13 at its failing input. A fresh driver and a driver after a successful
`set4ByteAddressing(false)` use 4-byte command frames (3-byte addresses). But after a
successful `set4ByteAddressing(true)`, `resetDevice()` puts the chip back into 3-byte mode
and leaves the driver in 4-byte mode: `getInstWithAddrSize()` is still 5, and a read at
`0x010203` then returns the byte of another address (1 instead of 2). -/
theorem resetDevice_keeps_4byte_mode :
    getInstWithAddrSize SpiFlashDefault = 4 ∧
    getInstWithAddrSize
      (set4ByteAddressing norPort SpiFlash4Byte false (boot bigNor)).2.1 = 4 ∧
    (set4ByteAddressing norPort SpiFlashDefault true (boot patternNor)).1 = true ∧
    ((readData norPort (set4ByteAddressing norPort SpiFlashDefault true (boot patternNor)).2.1
        0x010203 [0] 1
        (set4ByteAddressing norPort SpiFlashDefault true (boot patternNor)).2.2).map
      (fun r => r.1)) = some [2] ∧
    ∃ s, resetDevice norPort (set4ByteAddressing norPort SpiFlashDefault true (boot patternNor)).2.1
        1 (set4ByteAddressing norPort SpiFlashDefault true (boot patternNor)).2.2 = some s ∧
      s.dev.addr4 = false ∧
      getInstWithAddrSize
        (set4ByteAddressing norPort SpiFlashDefault true (boot patternNor)).2.1 = 5 ∧
      ((readData norPort (set4ByteAddressing norPort SpiFlashDefault true (boot patternNor)).2.1
          0x010203 [0] 1 s).map (fun r => r.1)) = some [1] :=
  ⟨rfl, by decide, by decide, by decide, _, rfl, rfl, rfl, by decide⟩

end SpiFlashRK
